import Mathlib

/-!
Verification of `StateMachine.hpp`.

A shallow embedding of the generic finite-state-machine engine of
`src/StateMachine.hpp` together with the demonstration set-up of `src/main.cpp`.

Modelling conventions.

* `std::unordered_set<T>` is a list of elements (`UnorderedSet`), `count` is
  membership and `insert` adds the element only when it is absent.
* `std::unordered_map<K, V>` is an association list (`UnorderedMap`); `find`
  returns the value stored under the first matching key and `operator[]`
  followed by a modification is `UnorderedMap.modify`.
* `std::vector` is a list; `emplace_back`/`push_back` append at the end.  Reading
  through an iterator is a bounds-checked read that yields `none` outside
  `[0, size)`.
* Listener and guard objects live outside the machine.  The machine stores
  handles of type `L` to them.  A call of a listener is recorded as an
  `Invocation` carrying the callback, its arguments and the values of `_current`
  and `_history` at the moment of the call.  The verdict of a guard is given by
  a function `canTransition : L → T → T → Bool` supplied to each `transitionTo`
  call, so the verdicts may differ from one call to the next.  Callbacks do not
  call back into the machine.
-/

namespace UnorderedSet

variable {T : Type} [DecidableEq T]

/-- The member function `count` of `std::unordered_set`: 1 when present, else 0. -/
def count (s : List T) (x : T) : Nat :=
  if x ∈ s then 1 else 0

/-- The member function `insert` of `std::unordered_set`: no effect when the
element is already present. -/
def insert (s : List T) (x : T) : List T :=
  if x ∈ s then s else s ++ [x]

end UnorderedSet

namespace UnorderedMap

variable {K V : Type} [DecidableEq K]

/-- The member function `find` of `std::unordered_map`; `none` stands for `end()`. -/
def find : List (K × V) → K → Option V
  | [], _ => none
  | (k, v) :: rest, key => if k = key then some v else find rest key

/-- The effect of `m[key]` followed by a modification `f` of the referenced value:
when the key is absent an entry holding `f dflt` is created, `dflt` being the
value-initialised `V`. -/
def modify : List (K × V) → K → V → (V → V) → List (K × V)
  | [], key, dflt, f => [(key, f dflt)]
  | (k, v) :: rest, key, dflt, f =>
    if k = key then (k, f v) :: rest else (k, v) :: modify rest key dflt f

end UnorderedMap

/-- The enumeration `TransitionError`. -/
inductive TransitionError
  | NoInitialState
  | AlreadyInTarget
  | InvalidTransition
  | BlockedByGuard
  deriving DecidableEq, Repr

/-- One virtual call made by the machine on a listener or guard object `l`. -/
inductive Callback (T L : Type)
  | onEnter (l : L) (state : T)
  | onExit (l : L) (state : T)
  | onTransition (l : L) (src dst : T)
  | onRefused (l : L) (src dst : T) (reason : TransitionError)
  | canTransition (l : L) (src dst : T) (verdict : Bool)
  deriving DecidableEq, Repr

/-- A callback together with the values of `_current` and `_history` at the
moment the call is made. -/
structure Invocation (T L : Type) where
  call : Callback T L
  current : T
  history : List (T × T)
  deriving DecidableEq, Repr

/-- Calls of `OnEnter`, `OnExit`, `OnTransition` and `OnTransitionRefused`
objects are notifications; a `canTransition` call is a guard consultation. -/
def Invocation.isNotification {T L : Type} (i : Invocation T L) : Bool :=
  match i.call with
  | .canTransition _ _ _ _ => false
  | _ => true

/-- The notifications of a trace, in order. -/
def notifications {T L : Type} (tr : List (Invocation T L)) : List (Invocation T L) :=
  tr.filter Invocation.isNotification

/-- The data members of `class StateMachine<T>`. -/
structure StateMachine (T L : Type) where
  current : T
  hasState : Bool
  transition : List (T × List T)
  globalTransitions : List T
  wildCardSources : List T
  history : List (T × T)
  hierarchy : List (T × T)
  onEnter : List L
  onExit : List L
  onTransition : List L
  onTransitionRefused : List L
  onTransitionGuard : List L
  deriving DecidableEq, Repr

/-- What a call of `transitionTo` or `backToPrevious` leaves behind: the returned
value, the machine after the call and the calls made on listeners and guards. -/
structure Outcome (T L : Type) where
  result : Bool
  machine : StateMachine T L
  trace : List (Invocation T L)
  deriving DecidableEq, Repr

namespace StateMachine

variable {T L : Type} [DecidableEq T]

/-- A freshly constructed machine.  `d` is the value `_current` happens to hold
before `setInitialState`. -/
def fresh (d : T) : StateMachine T L :=
  { current := d, hasState := false, transition := [], globalTransitions := [],
    wildCardSources := [], history := [], hierarchy := [], onEnter := [], onExit := [],
    onTransition := [], onTransitionRefused := [], onTransitionGuard := [] }

/-- The private member `notifyRefused`: every refusal listener is called, in
registration order. -/
def notifyRefused (m : StateMachine T L) (src dst : T) (reason : TransitionError) :
    List (Invocation T L) :=
  m.onTransitionRefused.map fun l => ⟨.onRefused l src dst reason, m.current, m.history⟩

/-- The private member `isValidTransition`. -/
def isValidTransition (m : StateMachine T L) (src dst : T) : Bool :=
  let explicitEdge : Bool :=
    match UnorderedMap.find m.transition src with
    | some s => decide (UnorderedSet.count s dst > 0)
    | none => false
  if explicitEdge then true
  else if UnorderedSet.count m.globalTransitions dst > 0 then true
  else if UnorderedSet.count m.wildCardSources src > 0 then true
  else false

/-- The member `setInitialState`. -/
def setInitialState (m : StateMachine T L) (state : T) : StateMachine T L :=
  { m with current := state, hasState := true }

/-- The member `addTransition(T from, T to)`. -/
def addTransition (m : StateMachine T L) (src dst : T) : StateMachine T L :=
  { m with transition :=
      UnorderedMap.modify m.transition src [] (fun s => UnorderedSet.insert s dst) }

/-- The member `addTransition(T from, StateMachineAny_t)`. -/
def addTransitionToAny (m : StateMachine T L) (src : T) : StateMachine T L :=
  { m with wildCardSources := UnorderedSet.insert m.wildCardSources src }

/-- The member `addTransition(StateMachineAny_t, T to)`. -/
def addTransitionFromAny (m : StateMachine T L) (dst : T) : StateMachine T L :=
  { m with globalTransitions := UnorderedSet.insert m.globalTransitions dst }

/-- The member `setParentState`: `_hierarchy[child] = parent`. -/
def setParentState (m : StateMachine T L) (child parent : T) : StateMachine T L :=
  { m with hierarchy := UnorderedMap.modify m.hierarchy child parent (fun _ => parent) }

/-- The guard loop of `transitionTo`: guards are consulted in registration order
and the loop stops at the first one that answers `false`.  The first component
tells whether the loop ran to its end. -/
def guardLoop (canTransition : L → T → T → Bool) (m : StateMachine T L) (target : T) :
    List L → Bool × List (Invocation T L)
  | [] => (true, [])
  | g :: rest =>
    let verdict := canTransition g m.current target
    let inv : Invocation T L :=
      ⟨.canTransition g m.current target verdict, m.current, m.history⟩
    if !verdict then (false, [inv])
    else ((guardLoop canTransition m target rest).1,
          inv :: (guardLoop canTransition m target rest).2)

/-- The member `transitionTo`. -/
def transitionTo (canTransition : L → T → T → Bool) (m : StateMachine T L) (target : T) :
    Outcome T L :=
  if !m.hasState then
    ⟨false, m, notifyRefused m m.current target .NoInitialState⟩
  else if m.current = target then
    ⟨false, m, notifyRefused m m.current target .AlreadyInTarget⟩
  else if !isValidTransition m m.current target then
    ⟨false, m, notifyRefused m m.current target .InvalidTransition⟩
  else
    let guards := guardLoop canTransition m target m.onTransitionGuard
    if !guards.1 then
      ⟨false, m, guards.2 ++ notifyRefused m m.current target .BlockedByGuard⟩
    else
      let exits : List (Invocation T L) :=
        m.onExit.map fun l => ⟨.onExit l m.current, m.current, m.history⟩
      let transitions : List (Invocation T L) :=
        m.onTransition.map fun l => ⟨.onTransition l m.current target, m.current, m.history⟩
      let m1 : StateMachine T L := { m with history := m.history ++ [(m.current, target)] }
      let m2 : StateMachine T L := { m1 with current := target }
      let enters : List (Invocation T L) :=
        m2.onEnter.map fun l => ⟨.onEnter l m2.current, m2.current, m2.history⟩
      ⟨true, m2, guards.2 ++ exits ++ transitions ++ enters⟩

/-- The member `registerOnEnter`. -/
def registerOnEnter (m : StateMachine T L) (l : L) : StateMachine T L :=
  { m with onEnter := m.onEnter ++ [l] }

/-- The member `registerOnExit`. -/
def registerOnExit (m : StateMachine T L) (l : L) : StateMachine T L :=
  { m with onExit := m.onExit ++ [l] }

/-- The member `registerOnTransition`. -/
def registerOnTransition (m : StateMachine T L) (l : L) : StateMachine T L :=
  { m with onTransition := m.onTransition ++ [l] }

/-- The member `registerOnTransitionRefused`. -/
def registerOnTransitionRefused (m : StateMachine T L) (l : L) : StateMachine T L :=
  { m with onTransitionRefused := m.onTransitionRefused ++ [l] }

/-- The member `registerGuard`. -/
def registerGuard (m : StateMachine T L) (l : L) : StateMachine T L :=
  { m with onTransitionGuard := m.onTransitionGuard ++ [l] }

/-- The member `getCurrentState`. -/
def getCurrentState (m : StateMachine T L) : T := m.current

/-- The member `getHistory`. -/
def getHistory (m : StateMachine T L) : List (T × T) := m.history

/-- The read `*v.end()` on a vector: the element at index `v.size()`, one past
the last element.  `none` when that index is outside the vector. -/
def derefEnd {α : Type} (v : List α) : Option α := v.get? v.length

/-- The member `backToPrevious`.  `none` stands for undefined behaviour: the
target is read through `_history.end()`. -/
def backToPrevious (canTransition : L → T → T → Bool) (m : StateMachine T L) :
    Option (Outcome T L) :=
  if m.history.isEmpty then some ⟨false, m, []⟩
  else
    match derefEnd m.history with
    | none => none
    | some entry => some (transitionTo canTransition m entry.1)

/-- The reason of a refusal as the specification words it: the first failing
check in the order initialisation, target equal to the current state, structural
validity, guards. -/
def firstFailingCheck (m : StateMachine T L) (target : T) : TransitionError :=
  if m.hasState = false then .NoInitialState
  else if target = m.current then .AlreadyInTarget
  else if m.isValidTransition m.current target = false then .InvalidTransition
  else .BlockedByGuard

/-- A call of a public member that can change the machine.  A `transitionTo`
call comes with the guard verdicts in force while it runs. -/
inductive Op (T L : Type)
  | setInitialState (state : T)
  | addTransition (src dst : T)
  | addTransitionToAny (src : T)
  | addTransitionFromAny (dst : T)
  | setParentState (child parent : T)
  | registerOnEnter (l : L)
  | registerOnExit (l : L)
  | registerOnTransition (l : L)
  | registerOnTransitionRefused (l : L)
  | registerGuard (l : L)
  | transitionTo (target : T) (canTransition : L → T → T → Bool)

/-- Whether the call is `setInitialState`. -/
def Op.isSetInitialState : Op T L → Bool
  | .setInitialState _ => true
  | _ => false

/-- The refusal listeners registered by a sequence of calls, in registration order. -/
def registeredRefusalListeners : List (Op T L) → List L
  | [] => []
  | .registerOnTransitionRefused l :: ops => l :: registeredRefusalListeners ops
  | _ :: ops => registeredRefusalListeners ops

/-- The machine after one call. -/
def step (m : StateMachine T L) : Op T L → StateMachine T L
  | .setInitialState s => m.setInitialState s
  | .addTransition a b => m.addTransition a b
  | .addTransitionToAny a => m.addTransitionToAny a
  | .addTransitionFromAny b => m.addTransitionFromAny b
  | .setParentState c p => m.setParentState c p
  | .registerOnEnter l => m.registerOnEnter l
  | .registerOnExit l => m.registerOnExit l
  | .registerOnTransition l => m.registerOnTransition l
  | .registerOnTransitionRefused l => m.registerOnTransitionRefused l
  | .registerGuard l => m.registerGuard l
  | .transitionTo target canTransition => (m.transitionTo canTransition target).machine

/-- The machine after a sequence of calls, the first of the list first. -/
def run (m : StateMachine T L) : List (Op T L) → StateMachine T L
  | [] => m
  | op :: ops => run (m.step op) ops

/-- The loop of `isSubstateOf`, started with `current`.  `fuel` bounds the number
of evaluations of the loop condition; `none` means that the bound was reached
before the loop ended.  The second component of a result counts the executions of
the loop body. -/
def isSubstateOfLoop (hierarchy : List (T × T)) (parent : T) :
    Nat → T → Option (Bool × Nat)
  | 0, _ => none
  | fuel + 1, current =>
    match UnorderedMap.find hierarchy current with
    | none => some (false, 0)
    | some next =>
      if next = parent then some (true, 1)
      else
        match isSubstateOfLoop hierarchy parent fuel next with
        | none => none
        | some r => some (r.1, r.2 + 1)

/-- The member `isSubstateOf`, with a bound on the evaluations of the loop
condition. -/
def isSubstateOf (m : StateMachine T L) (fuel : Nat) (child parent : T) : Option Bool :=
  match isSubstateOfLoop m.hierarchy parent fuel child with
  | none => none
  | some r => some r.1

/-- The state reached from `s` by following `k` parent links, when they all exist. -/
def parentChain (hierarchy : List (T × T)) : Nat → T → Option T
  | 0, s => some s
  | k + 1, s =>
    match UnorderedMap.find hierarchy s with
    | none => none
    | some p => parentChain hierarchy k p

/-- A hierarchy map is acyclic when no state reaches itself by following one or
more parent links. -/
def Acyclic (hierarchy : List (T × T)) : Prop :=
  ∀ (s : T) (k : Nat), parentChain hierarchy (k + 1) s ≠ some s

/-- The calls made on listeners and guards by one call of a public member. -/
def stepTrace (m : StateMachine T L) : Op T L → List (Invocation T L)
  | .transitionTo target canTransition => (m.transitionTo canTransition target).trace
  | _ => []

/-- The number of `transitionTo` calls that returned true in one call: 1 for a
successful `transitionTo`, 0 otherwise. -/
def stepSuccesses (m : StateMachine T L) : Op T L → Nat
  | .transitionTo target canTransition =>
    if (m.transitionTo canTransition target).result then 1 else 0
  | _ => 0

/-- The member `backToPrevious` for a given outcome `read` of the read through
`_history.end()`: `none` when the read fails, `some entry` when it yields `entry`. -/
def backToPreviousReading (read : Option (T × T)) (canTransition : L → T → T → Bool)
    (m : StateMachine T L) : Option (Outcome T L) :=
  if m.history.isEmpty then some ⟨false, m, []⟩
  else
    match read with
    | none => none
    | some entry => some (transitionTo canTransition m entry.1)

/-- A call of a public member: one of `Op`, or `backToPrevious` together with the
outcome of its read through `_history.end()` and the guard verdicts in force. -/
inductive Call (T L : Type)
  | op (o : Op T L)
  | backToPrevious (read : Option (T × T)) (canTransition : L → T → T → Bool)

/-- The machine after one call and the number of `transitionTo` calls, issued
directly or by `backToPrevious`, that returned true in it.  `none` when the call
has no defined outcome. -/
def stepCall (m : StateMachine T L) : Call T L → Option (StateMachine T L × Nat)
  | .op o => some (m.step o, m.stepSuccesses o)
  | .backToPrevious read canTransition =>
    match m.backToPreviousReading read canTransition with
    | none => none
    | some o => some (o.machine, if o.result then 1 else 0)

/-- The machine after a sequence of calls and the number of `transitionTo` calls
that returned true in it. -/
def runCalls (m : StateMachine T L) : List (Call T L) → Option (StateMachine T L × Nat)
  | [] => some (m, 0)
  | c :: cs =>
    match m.stepCall c with
    | none => none
    | some r =>
      match runCalls r.1 cs with
      | none => none
      | some r2 => some (r2.1, r.2 + r2.2)

/-- The state at which a history ends when it is read as a path that starts at
`s`: every entry must leave the state the previous one entered.  `none` when the
entries do not link up. -/
def pathEnd : T → List (T × T) → Option T
  | s, [] => some s
  | s, e :: rest => if e.1 = s then pathEnd e.2 rest else none

/-- A fresh machine on which the refusal listeners `rs` are registered and which is
then configured with `addTransition(A, B)`, `addTransition(B, C)` and
`setInitialState(A)`. -/
def twoEdges (d : T) (rs : List L) (A B C : T) : StateMachine T L :=
  (fresh d).run
    (rs.map Op.registerOnTransitionRefused ++
      [.addTransition A B, .addTransition B C, .setInitialState A])

end StateMachine

/-! ## The demonstration program `main.cpp` -/

namespace Demo

/-- The enumeration `State` of `main.cpp`. -/
inductive State
  | Idle
  | Running
  | Jumping
  | Dead
  | Reset
  deriving DecidableEq, Repr

/-- The three listener objects created in `main`. -/
inductive Listener
  | logger
  | guard
  | exitLogger
  deriving DecidableEq, Repr

/-- The method `JumpGuard::canTransition` for a given value of `stamina`. -/
def jumpGuard (stamina : Int) (_l : Listener) (_src dst : State) : Bool :=
  if dst = State.Jumping ∧ stamina ≤ 0 then false else true

/-- The machine of `main` after its configuration and registration calls. -/
def configured : StateMachine State Listener :=
  (StateMachine.fresh State.Idle).run
    [ .setInitialState State.Idle,
      .addTransitionFromAny State.Dead,
      .addTransitionToAny State.Reset,
      .addTransition State.Idle State.Running,
      .addTransition State.Running State.Jumping,
      .registerOnTransition Listener.logger,
      .registerOnTransitionRefused Listener.logger,
      .registerGuard Listener.guard,
      .registerOnExit Listener.exitLogger ]

/-- The machine of `main` after its five `transitionTo` calls, just before
`backToPrevious` is called. -/
def beforeUndo : StateMachine State Listener :=
  configured.run
    [ .transitionTo State.Idle (jumpGuard 0),
      .transitionTo State.Running (jumpGuard 0),
      .transitionTo State.Jumping (jumpGuard 0),
      .transitionTo State.Jumping (jumpGuard 5),
      .transitionTo State.Dead (jumpGuard 5) ]

/-- The configuration of `main` without the registration of the guard. -/
def unguarded : StateMachine State Listener :=
  (StateMachine.fresh State.Idle).run
    [ .setInitialState State.Idle,
      .addTransitionFromAny State.Dead,
      .addTransitionToAny State.Reset,
      .addTransition State.Idle State.Running,
      .addTransition State.Running State.Jumping,
      .registerOnTransition Listener.logger,
      .registerOnTransitionRefused Listener.logger,
      .registerOnExit Listener.exitLogger ]

/-- The configuration of `main` extended with an edge from `Idle` to itself and
with `Idle` as wildcard source and wildcard target. -/
def selfLoop : StateMachine State Listener :=
  configured.run
    [ .addTransition State.Idle State.Idle,
      .addTransitionToAny State.Idle,
      .addTransitionFromAny State.Idle ]

/-- The calls of `main` with the `setInitialState` call left out. -/
def withoutInitialState : List (StateMachine.Op State Listener) :=
  [ .addTransitionFromAny State.Dead,
    .addTransitionToAny State.Reset,
    .addTransition State.Idle State.Running,
    .addTransition State.Running State.Jumping,
    .registerOnTransition Listener.logger,
    .registerOnTransitionRefused Listener.logger,
    .registerGuard Listener.guard,
    .registerOnExit Listener.exitLogger,
    .transitionTo State.Idle (jumpGuard 0),
    .transitionTo State.Running (jumpGuard 0) ]

/-- The five `transitionTo` calls of `main`. -/
def transitions : List (StateMachine.Op State Listener) :=
  [ .transitionTo State.Idle (jumpGuard 0),
    .transitionTo State.Running (jumpGuard 0),
    .transitionTo State.Jumping (jumpGuard 0),
    .transitionTo State.Jumping (jumpGuard 5),
    .transitionTo State.Dead (jumpGuard 5) ]

/-- A hierarchy for the states of `main`: `Jumping` is a substate of `Running`,
`Running` and `Idle` are substates of `Reset`. -/
def nested : StateMachine State Listener :=
  configured.run
    [ .setParentState State.Jumping State.Running,
      .setParentState State.Running State.Reset,
      .setParentState State.Idle State.Reset ]

/-- The whole sequence of calls of `main`; the read through `_history.end()` made
by `backToPrevious` is taken to yield the entry `(Idle, Idle)`. -/
def program : List (StateMachine.Call State Listener) :=
  [ .op (.setInitialState State.Idle),
    .op (.addTransitionFromAny State.Dead),
    .op (.addTransitionToAny State.Reset),
    .op (.addTransition State.Idle State.Running),
    .op (.addTransition State.Running State.Jumping),
    .op (.registerOnTransition Listener.logger),
    .op (.registerOnTransitionRefused Listener.logger),
    .op (.registerGuard Listener.guard),
    .op (.registerOnExit Listener.exitLogger),
    .op (.transitionTo State.Idle (jumpGuard 0)),
    .op (.transitionTo State.Running (jumpGuard 0)),
    .op (.transitionTo State.Jumping (jumpGuard 0)),
    .op (.transitionTo State.Jumping (jumpGuard 5)),
    .op (.transitionTo State.Dead (jumpGuard 5)),
    .backToPrevious (some (State.Idle, State.Idle)) (jumpGuard 5) ]

end Demo

/-! ## Auxiliary facts -/

namespace StateMachine

variable {T L : Type}

/-- The guard loop runs to its end exactly when every guard permits. -/
theorem guardLoop_fst (ct : L → T → T → Bool) (m : StateMachine T L) (target : T)
    (gs : List L) :
    (guardLoop ct m target gs).1 = true ↔ ∀ g ∈ gs, ct g m.current target = true := by
  induction gs with
  | nil => simp [guardLoop]
  | cons g rest ih =>
    cases hv : ct g m.current target <;> simp [guardLoop, hv, ih]

/-- A guard loop that ran to its end consulted every guard once, in order. -/
theorem guardLoop_snd_of_pass (ct : L → T → T → Bool) (m : StateMachine T L) (target : T)
    (gs : List L) (h : (guardLoop ct m target gs).1 = true) :
    (guardLoop ct m target gs).2 =
      gs.map fun g => ⟨.canTransition g m.current target true, m.current, m.history⟩ := by
  induction gs with
  | nil => simp [guardLoop]
  | cons g rest ih =>
    cases hv : ct g m.current target
    · simp [guardLoop, hv] at h
    · simp [guardLoop, hv] at h ⊢
      exact ih h

/-- The guard loop only makes guard consultations. -/
theorem guardLoop_snd_calls (ct : L → T → T → Bool) (m : StateMachine T L) (target : T)
    (gs : List L) :
    ∀ i ∈ (guardLoop ct m target gs).2, i.isNotification = false := by
  induction gs with
  | nil => simp [guardLoop]
  | cons g rest ih =>
    cases hv : ct g m.current target
    · simp [guardLoop, hv, Invocation.isNotification]
    · intro i hi
      simp [guardLoop, hv] at hi
      rcases hi with rfl | hi
      · simp [Invocation.isNotification]
      · exact ih i hi

/-- No notification is made by the guard loop. -/
theorem notifications_guardLoop (ct : L → T → T → Bool) (m : StateMachine T L) (target : T)
    (gs : List L) : notifications (guardLoop ct m target gs).2 = [] := by
  unfold notifications
  rw [List.filter_eq_nil_iff]
  intro i hi
  simp [guardLoop_snd_calls ct m target gs i hi]

/-- A list of notifications is its own list of notifications. -/
theorem notifications_map_of_forall {α : Type} (f : α → Invocation T L) (xs : List α)
    (h : ∀ x, (f x).isNotification = true) : notifications (xs.map f) = xs.map f := by
  unfold notifications
  rw [List.filter_eq_self]
  intro i hi
  rcases List.mem_map.1 hi with ⟨x, _, rfl⟩
  exact h x

theorem notifications_append (a b : List (Invocation T L)) :
    notifications (a ++ b) = notifications a ++ notifications b := by
  simp [notifications]

/-- The trace of `notifyRefused` consists of notifications. -/
theorem notifications_notifyRefused (m : StateMachine T L) (a b : T) (r : TransitionError) :
    notifications (notifyRefused m a b r) = notifyRefused m a b r := by
  unfold notifyRefused
  exact notifications_map_of_forall _ _ (fun _ => rfl)

end StateMachine

namespace StateMachine

variable {T L : Type}

/-- The outcome of `transitionTo` on a refusal path. -/
theorem transitionTo_refused [DecidableEq T] (ct : L → T → T → Bool) (m : StateMachine T L)
    (target : T) (h : (m.transitionTo ct target).result = false) :
    (m.transitionTo ct target).machine = m ∧
    notifications (m.transitionTo ct target).trace =
      notifyRefused m m.current target (firstFailingCheck m target) := by
  unfold transitionTo firstFailingCheck at *
  cases hs : m.hasState
  · simp [notifications_notifyRefused]
  · by_cases hc : m.current = target
    · have hc2 : target = m.current := hc.symm
      simp [hc, notifications_notifyRefused]
    · have hc2 : ¬ target = m.current := fun e => hc e.symm
      cases hv : m.isValidTransition m.current target
      · simp [hc, hc2, hv, notifications_notifyRefused]
      · cases hg : (guardLoop ct m target m.onTransitionGuard).1
        · simp [hc, hc2, hv, hg, notifications_append, notifications_guardLoop,
            notifications_notifyRefused]
        · simp [hs, hc, hv, hg] at h

/-- The outcome of `transitionTo` on the success path. -/
theorem transitionTo_accepted [DecidableEq T] (ct : L → T → T → Bool) (m : StateMachine T L)
    (target : T) (h : (m.transitionTo ct target).result = true) :
    (m.transitionTo ct target).machine =
      { m with history := m.history ++ [(m.current, target)], current := target } ∧
    (m.transitionTo ct target).trace =
      (m.onTransitionGuard.map fun g =>
        (⟨.canTransition g m.current target true, m.current, m.history⟩ : Invocation T L))
      ++ (m.onExit.map fun l => ⟨.onExit l m.current, m.current, m.history⟩)
      ++ (m.onTransition.map fun l =>
            ⟨.onTransition l m.current target, m.current, m.history⟩)
      ++ (m.onEnter.map fun l =>
            ⟨.onEnter l target, target, m.history ++ [(m.current, target)]⟩) := by
  unfold transitionTo at *
  cases hs : m.hasState
  · simp [hs] at h
  · by_cases hc : m.current = target
    · simp [hs, hc] at h
    · cases hv : m.isValidTransition m.current target
      · simp [hs, hc, hv] at h
      · cases hg : (guardLoop ct m target m.onTransitionGuard).1
        · simp [hs, hc, hv, hg] at h
        · simp [hc, hv, hg, guardLoop_snd_of_pass ct m target _ hg]

/-- When `transitionTo` returns `true`. -/
theorem transitionTo_result [DecidableEq T] (ct : L → T → T → Bool) (m : StateMachine T L)
    (target : T) :
    (m.transitionTo ct target).result = true ↔
      (m.hasState = true ∧ target ≠ m.current ∧
        m.isValidTransition m.current target = true ∧
        ∀ g ∈ m.onTransitionGuard, ct g m.current target = true) := by
  rw [← guardLoop_fst]
  unfold transitionTo
  cases hs : m.hasState
  · simp
  · by_cases hc : m.current = target
    · simp [hc]
    · have hc2 : ¬ target = m.current := fun e => hc e.symm
      cases hv : m.isValidTransition m.current target
      · simp [hc, hv]
      · cases hg : (guardLoop ct m target m.onTransitionGuard).1 <;> simp [hc, hc2, hv, hg]

end StateMachine

/-! ## The transition protocol -/

namespace StateMachine

variable {T L : Type}

/-- C1: `transitionTo(target)` returns true if and only if the machine has been
initialised, the target differs from the current state, `isValidTransition(current,
target)` holds and every registered guard answers true for `(current, target)`; in
every other case it returns false.  With an empty guard list every structurally
valid transition to a different state succeeds. -/
theorem transitionTo_true_iff [DecidableEq T] (ct : L → T → T → Bool)
    (m : StateMachine T L) (target : T) :
    ((m.transitionTo ct target).result = true ↔
      (m.hasState = true ∧ target ≠ m.current ∧
        m.isValidTransition m.current target = true ∧
        ∀ g ∈ m.onTransitionGuard, ct g m.current target = true)) ∧
    ((m.transitionTo ct target).result = false ↔
      ¬ (m.hasState = true ∧ target ≠ m.current ∧
        m.isValidTransition m.current target = true ∧
        ∀ g ∈ m.onTransitionGuard, ct g m.current target = true)) ∧
    (m.onTransitionGuard = [] → m.hasState = true → target ≠ m.current →
      m.isValidTransition m.current target = true →
      (m.transitionTo ct target).result = true) := by
  refine ⟨transitionTo_result ct m target, ?_, ?_⟩
  · rw [← transitionTo_result ct m target]
    cases (m.transitionTo ct target).result <;> simp
  · intro hg hs hc hv
    rw [transitionTo_result ct m target]
    refine ⟨hs, hc, hv, ?_⟩
    intro g hgm
    rw [hg] at hgm
    cases hgm

/-- With no guard registered the structurally valid request `Idle → Running` of
the demonstration machine succeeds. -/
theorem transitionTo_true_iff_witness :
    (Demo.unguarded.transitionTo (Demo.jumpGuard 0) Demo.State.Running).result = true :=
  (transitionTo_true_iff (Demo.jumpGuard 0) Demo.unguarded Demo.State.Running).2.2
    (by decide) (by decide) (by decide) (by decide)

/-- C2: when `transitionTo(target)` returns true from current state `c`, the
history after the call is the history before the call with the one entry
`(c, target)` appended at its end, and `getCurrentState()` is `target`. -/
theorem transitionTo_success_state [DecidableEq T] (ct : L → T → T → Bool)
    (m : StateMachine T L) (target : T)
    (h : (m.transitionTo ct target).result = true) :
    (m.transitionTo ct target).machine.getHistory = m.getHistory ++ [(m.getCurrentState, target)] ∧
    (m.transitionTo ct target).machine.getHistory.length = m.getHistory.length + 1 ∧
    (m.transitionTo ct target).machine.getCurrentState = target := by
  have hm := (transitionTo_accepted ct m target h).1
  simp [hm, getHistory, getCurrentState]

/-- The request `Idle → Running` of the demonstration machine. -/
theorem transitionTo_success_state_witness :
    (Demo.configured.transitionTo (Demo.jumpGuard 0) Demo.State.Running).result = true ∧
    (Demo.configured.transitionTo (Demo.jumpGuard 0) Demo.State.Running).machine.getHistory
      = Demo.configured.getHistory ++ [(Demo.configured.getCurrentState, Demo.State.Running)] ∧
    (Demo.configured.transitionTo (Demo.jumpGuard 0) Demo.State.Running).machine.getCurrentState
      = Demo.State.Running :=
  ⟨by decide,
   (transitionTo_success_state (Demo.jumpGuard 0) Demo.configured Demo.State.Running
      (by decide)).1,
   (transitionTo_success_state (Demo.jumpGuard 0) Demo.configured Demo.State.Running
      (by decide)).2.2⟩

/-- C3: on a successful `transitionTo(target)` from current state `c` the
notifications of the call are, in this order: every on-exit listener with `c`, every
on-transition listener with `(c, target)`, every on-enter listener with `target`,
each registry in registration order and each registered listener once; no refusal
listener is called.  Exit and transition listeners run while `_current` is still `c`
and `_history` is still the old history; enter listeners run when `_history` already
has the new entry and `_current` is `target`.  The only other calls of the whole
trace are the guard consultations, which come first. -/
theorem transitionTo_success_trace [DecidableEq T] (ct : L → T → T → Bool)
    (m : StateMachine T L) (target : T)
    (h : (m.transitionTo ct target).result = true) :
    notifications (m.transitionTo ct target).trace =
      (m.onExit.map fun l =>
        (⟨.onExit l m.current, m.current, m.history⟩ : Invocation T L))
      ++ (m.onTransition.map fun l =>
            ⟨.onTransition l m.current target, m.current, m.history⟩)
      ++ (m.onEnter.map fun l =>
            ⟨.onEnter l target, target, m.history ++ [(m.current, target)]⟩) ∧
    (m.transitionTo ct target).trace =
      (m.onTransitionGuard.map fun g =>
        (⟨.canTransition g m.current target true, m.current, m.history⟩ : Invocation T L))
      ++ notifications (m.transitionTo ct target).trace ∧
    (∀ i ∈ (m.transitionTo ct target).trace, ∀ l a b r, i.call ≠ .onRefused l a b r) ∧
    (m.transitionTo ct target).machine.current = target ∧
    (m.transitionTo ct target).machine.history = m.history ++ [(m.current, target)] := by
  obtain ⟨hm, ht⟩ := transitionTo_accepted ct m target h
  have hn : notifications (m.transitionTo ct target).trace =
      (m.onExit.map fun l =>
        (⟨.onExit l m.current, m.current, m.history⟩ : Invocation T L))
      ++ (m.onTransition.map fun l =>
            ⟨.onTransition l m.current target, m.current, m.history⟩)
      ++ (m.onEnter.map fun l =>
            ⟨.onEnter l target, target, m.history ++ [(m.current, target)]⟩) := by
    rw [ht]
    simp only [notifications_append]
    have he : notifications (m.onExit.map fun l =>
        (⟨.onExit l m.current, m.current, m.history⟩ : Invocation T L)) =
        m.onExit.map fun l => ⟨.onExit l m.current, m.current, m.history⟩ :=
      notifications_map_of_forall _ _ (fun _ => rfl)
    have htr : notifications (m.onTransition.map fun l =>
        (⟨.onTransition l m.current target, m.current, m.history⟩ : Invocation T L)) =
        m.onTransition.map fun l =>
          ⟨.onTransition l m.current target, m.current, m.history⟩ :=
      notifications_map_of_forall _ _ (fun _ => rfl)
    have hen : notifications (m.onEnter.map fun l =>
        (⟨.onEnter l target, target, m.history ++ [(m.current, target)]⟩ :
          Invocation T L)) =
        m.onEnter.map fun l =>
          ⟨.onEnter l target, target, m.history ++ [(m.current, target)]⟩ :=
      notifications_map_of_forall _ _ (fun _ => rfl)
    rw [he, htr, hen]
    have hgs : notifications (m.onTransitionGuard.map fun g =>
        (⟨.canTransition g m.current target true, m.current, m.history⟩ : Invocation T L))
        = [] := by
      unfold notifications
      rw [List.filter_eq_nil_iff]
      intro i hi
      rcases List.mem_map.1 hi with ⟨x, _, rfl⟩
      simp [Invocation.isNotification]
    rw [hgs]
    simp
  refine ⟨hn, ?_, ?_, ?_, ?_⟩
  · rw [hn, ht]
    simp
  · intro i hi l a b r
    rw [ht] at hi
    simp only [List.mem_append, List.mem_map] at hi
    rcases hi with ((⟨x, _, rfl⟩ | ⟨x, _, rfl⟩) | ⟨x, _, rfl⟩) | ⟨x, _, rfl⟩ <;> simp
  · rw [hm]
  · rw [hm]

/-- The request `Idle → Running` of the demonstration machine: the exit logger is
called before the logger. -/
theorem transitionTo_success_trace_witness :
    notifications (Demo.configured.transitionTo (Demo.jumpGuard 0) Demo.State.Running).trace =
      [⟨.onExit Demo.Listener.exitLogger Demo.State.Idle, Demo.State.Idle, []⟩,
       ⟨.onTransition Demo.Listener.logger Demo.State.Idle Demo.State.Running,
         Demo.State.Idle, []⟩] :=
  (transitionTo_success_trace (Demo.jumpGuard 0) Demo.configured Demo.State.Running
    (by decide)).1

/-- C4: when `transitionTo(target)` returns false, the notifications of the call are
the registered refusal listeners, each once and in registration order, called with
`(_current, target, reason)`, where the reason is the first failing check in the
order `NoInitialState`, `AlreadyInTarget`, `InvalidTransition`, `BlockedByGuard`; no
on-exit, on-transition or on-enter listener is called.  A guard answering false for
a structurally valid `(S, T)` with `S ≠ T` makes the call fail with
`BlockedByGuard`. -/
theorem transitionTo_failure_trace [DecidableEq T] (ct : L → T → T → Bool)
    (m : StateMachine T L) (target : T) :
    ((m.transitionTo ct target).result = false →
      notifications (m.transitionTo ct target).trace =
        (m.onTransitionRefused.map fun l =>
          (⟨.onRefused l m.current target (firstFailingCheck m target),
            m.current, m.history⟩ : Invocation T L)) ∧
      (∀ i ∈ (m.transitionTo ct target).trace, ∀ l,
        (∀ s, i.call ≠ .onExit l s) ∧ (∀ a b, i.call ≠ .onTransition l a b) ∧
        (∀ s, i.call ≠ .onEnter l s))) ∧
    (m.hasState = false → firstFailingCheck m target = .NoInitialState) ∧
    (m.hasState = true → target = m.current →
      firstFailingCheck m target = .AlreadyInTarget) ∧
    (m.hasState = true → target ≠ m.current →
      m.isValidTransition m.current target = false →
      firstFailingCheck m target = .InvalidTransition) ∧
    (m.hasState = true → target ≠ m.current →
      m.isValidTransition m.current target = true →
      firstFailingCheck m target = .BlockedByGuard) ∧
    (m.hasState = true → m.current ≠ target →
      m.isValidTransition m.current target = true →
      (∃ g ∈ m.onTransitionGuard, ct g m.current target = false) →
      (m.transitionTo ct target).result = false ∧
      notifications (m.transitionTo ct target).trace =
        (m.onTransitionRefused.map fun l =>
          (⟨.onRefused l m.current target .BlockedByGuard,
            m.current, m.history⟩ : Invocation T L))) := by
  have key : (m.transitionTo ct target).result = false →
      notifications (m.transitionTo ct target).trace =
        (m.onTransitionRefused.map fun l =>
          (⟨.onRefused l m.current target (firstFailingCheck m target),
            m.current, m.history⟩ : Invocation T L)) := fun h =>
    (transitionTo_refused ct m target h).2
  refine ⟨?_, ?_, ?_, ?_, ?_, ?_⟩
  · intro h
    refine ⟨key h, ?_⟩
    intro i hi l
    by_cases hn : i.isNotification = true
    · have hmem : i ∈ notifications (m.transitionTo ct target).trace := by
        unfold notifications
        exact List.mem_filter.2 ⟨hi, hn⟩
      rw [key h] at hmem
      rcases List.mem_map.1 hmem with ⟨x, _, rfl⟩
      simp
    · have hc : ∃ g a b v, i.call = .canTransition g a b v := by
        rcases i with ⟨c, cu, hi⟩
        cases c <;> simp [Invocation.isNotification] at hn ⊢
      rcases hc with ⟨g, a, b, v, hc⟩
      simp [hc]
  · intro hs
    simp [firstFailingCheck, hs]
  · intro hs hc
    simp [firstFailingCheck, hs, hc]
  · intro hs hc hv
    simp [firstFailingCheck, hs, hc, hv]
  · intro hs hc hv
    simp [firstFailingCheck, hs, hc, hv]
  · intro hs hc hv hg
    have hc2 : target ≠ m.current := fun e => hc e.symm
    have hr : (m.transitionTo ct target).result = false := by
      cases hres : (m.transitionTo ct target).result
      · rfl
      · rcases hg with ⟨g, hgm, hgf⟩
        have := ((transitionTo_result ct m target).1 hres).2.2.2 g hgm
        rw [hgf] at this
        cases this
    refine ⟨hr, ?_⟩
    rw [key hr]
    simp [firstFailingCheck, hs, hc2, hv]

/-- With no stamina the guard of the demonstration program vetoes
`Running → Jumping`: the logger is told `BlockedByGuard`. -/
theorem transitionTo_failure_trace_witness :
    ((Demo.configured.transitionTo (Demo.jumpGuard 0) Demo.State.Running).machine.transitionTo
      (Demo.jumpGuard 0) Demo.State.Jumping).result = false ∧
    notifications ((Demo.configured.transitionTo (Demo.jumpGuard 0)
      Demo.State.Running).machine.transitionTo (Demo.jumpGuard 0) Demo.State.Jumping).trace =
      [⟨.onRefused Demo.Listener.logger Demo.State.Running Demo.State.Jumping
          TransitionError.BlockedByGuard,
        Demo.State.Running, [(Demo.State.Idle, Demo.State.Running)]⟩] ∧
    (∀ i ∈ ((Demo.configured.transitionTo (Demo.jumpGuard 0)
        Demo.State.Running).machine.transitionTo (Demo.jumpGuard 0) Demo.State.Jumping).trace,
      ∀ l, (∀ s, i.call ≠ .onExit l s) ∧ (∀ a b, i.call ≠ .onTransition l a b) ∧
        (∀ s, i.call ≠ .onEnter l s)) :=
  ⟨by decide,
   ((transitionTo_failure_trace (Demo.jumpGuard 0)
      (Demo.configured.transitionTo (Demo.jumpGuard 0) Demo.State.Running).machine
      Demo.State.Jumping).2.2.2.2.2
      (by decide) (by decide) (by decide) ⟨Demo.Listener.guard, by decide, by decide⟩).2,
   ((transitionTo_failure_trace (Demo.jumpGuard 0)
      (Demo.configured.transitionTo (Demo.jumpGuard 0) Demo.State.Running).machine
      Demo.State.Jumping).1 (by decide)).2⟩

/-- C5: on an initialised machine with current state `c`, whatever the graph
(self-edge, `c` a wildcard source or wildcard target) and whatever the guards
answer, `transitionTo(c)` returns false and reports `AlreadyInTarget` to every
refusal listener. -/
theorem transitionTo_current_refused [DecidableEq T] (ct : L → T → T → Bool)
    (m : StateMachine T L) (h : m.hasState = true) :
    (m.transitionTo ct m.current).result = false ∧
    (m.transitionTo ct m.current).trace =
      (m.onTransitionRefused.map fun l =>
        (⟨.onRefused l m.current m.current .AlreadyInTarget,
          m.current, m.history⟩ : Invocation T L)) ∧
    ((((m.addTransition m.current m.current).addTransitionToAny
        m.current).addTransitionFromAny m.current).transitionTo ct m.current).result = false ∧
    ((((m.addTransition m.current m.current).addTransitionToAny
        m.current).addTransitionFromAny m.current).transitionTo ct m.current).trace =
      (m.onTransitionRefused.map fun l =>
        (⟨.onRefused l m.current m.current .AlreadyInTarget,
          m.current, m.history⟩ : Invocation T L)) := by
  simp [transitionTo, h, notifyRefused, addTransition, addTransitionToAny,
    addTransitionFromAny]

/-- The first call of the demonstration program, `transitionTo(Idle)` in state
`Idle`, here with the self-edge and both wildcards added for `Idle`. -/
theorem transitionTo_current_refused_witness :
    Demo.selfLoop.isValidTransition Demo.State.Idle Demo.State.Idle = true ∧
    (Demo.selfLoop.transitionTo (Demo.jumpGuard 5) Demo.State.Idle).result = false ∧
    (Demo.selfLoop.transitionTo (Demo.jumpGuard 5) Demo.State.Idle).trace =
      [⟨.onRefused Demo.Listener.logger Demo.State.Idle Demo.State.Idle
          TransitionError.AlreadyInTarget, Demo.State.Idle, []⟩] :=
  ⟨by decide,
   (transitionTo_current_refused (Demo.jumpGuard 5) Demo.selfLoop (by decide)).1,
   (transitionTo_current_refused (Demo.jumpGuard 5) Demo.selfLoop (by decide)).2.1⟩

end StateMachine

/-! ## Sequences of calls on an uninitialised machine -/

namespace StateMachine

variable {T L : Type}

/-- On an uninitialised machine `transitionTo` is refused and changes nothing. -/
theorem transitionTo_uninitialized [DecidableEq T] (ct : L → T → T → Bool)
    (m : StateMachine T L) (target : T) (h : m.hasState = false) :
    m.transitionTo ct target =
      ⟨false, m, notifyRefused m m.current target .NoInitialState⟩ := by
  simp [transitionTo, h]

/-- A call other than `setInitialState` leaves an uninitialised machine
uninitialised, keeps `_current` and `_history`, and adds to the refusal registry
exactly the listener it registers. -/
theorem step_uninitialized [DecidableEq T] (m : StateMachine T L) (op : Op T L)
    (h : m.hasState = false) (hop : op.isSetInitialState = false) :
    (m.step op).hasState = false ∧ (m.step op).current = m.current ∧
    (m.step op).history = m.history ∧
    (m.step op).onTransitionRefused =
      m.onTransitionRefused ++ registeredRefusalListeners [op] := by
  cases op <;>
    simp_all [step, Op.isSetInitialState, registeredRefusalListeners, addTransition,
      addTransitionToAny, addTransitionFromAny, setParentState, registerOnEnter,
      registerOnExit, registerOnTransition, registerOnTransitionRefused, registerGuard,
      transitionTo_uninitialized]

theorem registeredRefusalListeners_cons (op : Op T L) (ops : List (Op T L)) :
    registeredRefusalListeners (op :: ops) =
      registeredRefusalListeners [op] ++ registeredRefusalListeners ops := by
  cases op <;> simp [registeredRefusalListeners]

/-- The invariant of `step_uninitialized` along a sequence of calls. -/
theorem run_uninitialized [DecidableEq T] (ops : List (Op T L)) :
    ∀ m : StateMachine T L, m.hasState = false →
      (∀ op ∈ ops, op.isSetInitialState = false) →
      (m.run ops).hasState = false ∧ (m.run ops).current = m.current ∧
      (m.run ops).history = m.history ∧
      (m.run ops).onTransitionRefused =
        m.onTransitionRefused ++ registeredRefusalListeners ops := by
  induction ops with
  | nil => intro m h _; simp [run, registeredRefusalListeners, h]
  | cons op ops ih =>
    intro m h hops
    obtain ⟨h1, h2, h3, h4⟩ := step_uninitialized m op h (hops op (List.mem_cons_self _ _))
    obtain ⟨k1, k2, k3, k4⟩ := ih (m.step op) h1
      (fun o ho => hops o (List.mem_cons_of_mem _ ho))
    refine ⟨k1, by rw [run, k2, h2], by rw [run, k3, h3], ?_⟩
    rw [run, k4, h4, registeredRefusalListeners_cons op ops, List.append_assoc]

/-- C6: on a machine on which `setInitialState` has never been called, after any
sequence of `addTransition`, `setParentState`, `register*` and `transitionTo` calls,
`transitionTo(target)` returns false, calls every registered refusal listener once,
in registration order, with `target` and `NoInitialState` (and nothing else), and
leaves the machine as it was, hence uninitialised, so that the next `transitionTo`
fails in the same way. -/
theorem transitionTo_before_setInitialState [DecidableEq T] (d : T) (ops : List (Op T L))
    (hops : ∀ op ∈ ops, op.isSetInitialState = false)
    (ct : L → T → T → Bool) (target : T) :
    ((fresh d).run ops).hasState = false ∧
    (((fresh d).run ops).transitionTo ct target).result = false ∧
    (((fresh d).run ops).transitionTo ct target).trace =
      ((registeredRefusalListeners ops).map fun l =>
        (⟨.onRefused l d target .NoInitialState, d, []⟩ : Invocation T L)) ∧
    ((fresh d).run ops).onTransitionRefused = registeredRefusalListeners ops ∧
    (((fresh d).run ops).transitionTo ct target).machine = (fresh d).run ops ∧
    (((fresh d).run ops).transitionTo ct target).machine.hasState = false ∧
    (∀ (ct2 : L → T → T → Bool) (target2 : T),
      ((((fresh d).run ops).transitionTo ct target).machine.transitionTo ct2 target2).result
        = false ∧
      ((((fresh d).run ops).transitionTo ct target).machine.transitionTo ct2 target2).trace =
        ((registeredRefusalListeners ops).map fun l =>
          (⟨.onRefused l d target2 .NoInitialState, d, []⟩ : Invocation T L))) := by
  obtain ⟨h1, h2, h3, h4⟩ := run_uninitialized ops (fresh d : StateMachine T L) rfl hops
  have h2 : ((fresh d : StateMachine T L).run ops).current = d := h2
  have h3 : ((fresh d : StateMachine T L).run ops).history = [] := h3
  have h4 : ((fresh d : StateMachine T L).run ops).onTransitionRefused =
      registeredRefusalListeners ops := by
    rw [h4]; simp [fresh]
  have key : ∀ (c : L → T → T → Bool) (t : T),
      ((fresh d : StateMachine T L).run ops).transitionTo c t =
        ⟨false, (fresh d).run ops,
          (registeredRefusalListeners ops).map fun l =>
            (⟨.onRefused l d t .NoInitialState, d, []⟩ : Invocation T L)⟩ := by
    intro c t
    rw [transitionTo_uninitialized c _ t h1]
    simp [notifyRefused, h2, h3, h4]
  refine ⟨h1, ?_, ?_, h4, ?_, ?_, ?_⟩
  · rw [key]
  · rw [key]
  · rw [key]
  · rw [key]; exact h1
  · intro ct2 target2
    rw [key ct target]
    simp only
    rw [key ct2 target2]
    exact ⟨rfl, rfl⟩

/-- The demonstration program without its `setInitialState` call: a request for
`Dead`, a wildcard target, is refused and the logger is told `NoInitialState`. -/
theorem transitionTo_before_setInitialState_witness :
    (((fresh Demo.State.Idle).run Demo.withoutInitialState).transitionTo
      (Demo.jumpGuard 5) Demo.State.Dead).result = false ∧
    (((fresh Demo.State.Idle).run Demo.withoutInitialState).transitionTo
      (Demo.jumpGuard 5) Demo.State.Dead).trace =
      ((registeredRefusalListeners Demo.withoutInitialState).map fun l =>
        (⟨.onRefused l Demo.State.Idle Demo.State.Dead .NoInitialState,
          Demo.State.Idle, []⟩ : Invocation Demo.State Demo.Listener)) ∧
    registeredRefusalListeners Demo.withoutInitialState = [Demo.Listener.logger] :=
  ⟨(transitionTo_before_setInitialState Demo.State.Idle Demo.withoutInitialState
      (by decide) (Demo.jumpGuard 5) Demo.State.Dead).2.1,
   (transitionTo_before_setInitialState Demo.State.Idle Demo.withoutInitialState
      (by decide) (Demo.jumpGuard 5) Demo.State.Dead).2.2.1,
   by decide⟩

end StateMachine

/-! ## The graph store -/

namespace UnorderedSet

variable {T : Type}

theorem count_pos_iff [DecidableEq T] (s : List T) (x : T) : count s x > 0 ↔ x ∈ s := by
  unfold count
  by_cases h : x ∈ s <;> simp [h]

theorem mem_insert_iff [DecidableEq T] (s : List T) (x y : T) :
    y ∈ insert s x ↔ y ∈ s ∨ y = x := by
  unfold insert
  by_cases h : x ∈ s
  · simp only [h, if_true]
    constructor
    · exact Or.inl
    · rintro (h1 | rfl)
      · exact h1
      · exact h
  · simp [h]

/-- Inserting an element a second time changes nothing. -/
theorem insert_insert [DecidableEq T] (s : List T) (x : T) :
    insert (insert s x) x = insert s x := by
  have h : x ∈ insert s x := (mem_insert_iff s x x).2 (Or.inr rfl)
  show (if x ∈ insert s x then insert s x else insert s x ++ [x]) = insert s x
  rw [if_pos h]

end UnorderedSet

namespace UnorderedMap

variable {K V : Type}

theorem find_modify_self [DecidableEq K] (m : List (K × V)) (k : K) (d : V) (f : V → V) :
    find (modify m k d f) k = some (f ((find m k).getD d)) := by
  induction m with
  | nil => simp [modify, find]
  | cons e rest ih =>
    rcases e with ⟨k1, v1⟩
    by_cases h : k1 = k
    · simp [modify, find, h]
    · simp [modify, find, h, ih]

theorem find_modify_other [DecidableEq K] (m : List (K × V)) (k k2 : K) (d : V) (f : V → V)
    (hne : k2 ≠ k) : find (modify m k d f) k2 = find m k2 := by
  induction m with
  | nil =>
    have : ¬ k = k2 := fun e => hne e.symm
    simp [modify, find, this]
  | cons e rest ih =>
    rcases e with ⟨k1, v1⟩
    by_cases h : k1 = k
    · have : ¬ k = k2 := fun e => hne e.symm
      simp [modify, find, h, this]
    · by_cases h2 : k1 = k2
      · subst h2
        simp [modify, find, h]
      · simp [modify, find, h, h2, ih]

/-- Applying the same idempotent modification twice under a key is applying it once. -/
theorem modify_modify [DecidableEq K] (m : List (K × V)) (k : K) (d : V) (f : V → V)
    (hf : ∀ v, f (f v) = f v) : modify (modify m k d f) k d f = modify m k d f := by
  induction m with
  | nil => simp [modify, hf]
  | cons e rest ih =>
    rcases e with ⟨k1, v1⟩
    by_cases h : k1 = k
    · simp [modify, h, hf]
    · simp [modify, h, ih]

end UnorderedMap

namespace StateMachine

variable {T L : Type}

/-- The value of `isValidTransition` in terms of membership. -/
theorem isValidTransition_eq_true [DecidableEq T] (m : StateMachine T L) (src dst : T) :
    m.isValidTransition src dst = true ↔
      ((∃ s, UnorderedMap.find m.transition src = some s ∧ dst ∈ s) ∨
        dst ∈ m.globalTransitions ∨ src ∈ m.wildCardSources) := by
  unfold isValidTransition
  cases hf : UnorderedMap.find m.transition src with
  | none => simp [UnorderedSet.count_pos_iff]
  | some s =>
    by_cases h1 : dst ∈ s
    · simp [UnorderedSet.count_pos_iff, h1]
    · simp [UnorderedSet.count_pos_iff, h1]

/-- C7: `isValidTransition(from, to)` is true if and only if `to` is in the edge
set stored for `from`, or `to` is in the wildcard-target set (filled by
`addTransition(Any, to)`), or `from` is in the wildcard-source set (filled by
`addTransition(from, Any)`). -/
theorem isValidTransition_iff [DecidableEq T] (m : StateMachine T L) (src dst : T) :
    (m.isValidTransition src dst = true ↔
      ((∃ s, UnorderedMap.find m.transition src = some s ∧ dst ∈ s) ∨
        dst ∈ m.globalTransitions ∨ src ∈ m.wildCardSources)) ∧
    (m.isValidTransition src dst = false ↔
      ¬ ((∃ s, UnorderedMap.find m.transition src = some s ∧ dst ∈ s) ∨
        dst ∈ m.globalTransitions ∨ src ∈ m.wildCardSources)) ∧
    dst ∈ (m.addTransitionFromAny dst).globalTransitions ∧
    src ∈ (m.addTransitionToAny src).wildCardSources := by
  refine ⟨isValidTransition_eq_true m src dst, ?_, ?_, ?_⟩
  · rw [← isValidTransition_eq_true m src dst]
    cases m.isValidTransition src dst <;> simp
  · exact (UnorderedSet.mem_insert_iff _ _ _).2 (Or.inr rfl)
  · exact (UnorderedSet.mem_insert_iff _ _ _).2 (Or.inr rfl)

/-- `transitionTo` leaves the graph store as it is. -/
theorem transitionTo_graph [DecidableEq T] (ct : L → T → T → Bool) (m : StateMachine T L)
    (target : T) :
    (m.transitionTo ct target).machine.transition = m.transition ∧
    (m.transitionTo ct target).machine.globalTransitions = m.globalTransitions ∧
    (m.transitionTo ct target).machine.wildCardSources = m.wildCardSources := by
  cases h : (m.transitionTo ct target).result
  · rw [(transitionTo_refused ct m target h).1]
    exact ⟨rfl, rfl, rfl⟩
  · rw [(transitionTo_accepted ct m target h).1]
    exact ⟨rfl, rfl, rfl⟩

/-- No call removes a structurally valid pair. -/
theorem isValidTransition_step [DecidableEq T] (m : StateMachine T L) (op : Op T L)
    (a b : T) (h : m.isValidTransition a b = true) :
    (m.step op).isValidTransition a b = true := by
  rw [isValidTransition_eq_true] at h ⊢
  cases op with
  | addTransition s d =>
    simp only [step, addTransition]
    rcases h with ⟨st, hst, hb⟩ | h
    · left
      by_cases ha : a = s
      · subst ha
        refine ⟨_, UnorderedMap.find_modify_self _ _ _ _, ?_⟩
        rw [hst]
        exact (UnorderedSet.mem_insert_iff _ _ _).2 (Or.inl hb)
      · exact ⟨st, by rw [UnorderedMap.find_modify_other _ _ _ _ _ ha]; exact hst, hb⟩
    · exact Or.inr h
  | addTransitionToAny s =>
    simp only [step, addTransitionToAny]
    rcases h with h | h | h
    · exact Or.inl h
    · exact Or.inr (Or.inl h)
    · exact Or.inr (Or.inr ((UnorderedSet.mem_insert_iff _ _ _).2 (Or.inl h)))
  | addTransitionFromAny d =>
    simp only [step, addTransitionFromAny]
    rcases h with h | h | h
    · exact Or.inl h
    · exact Or.inr (Or.inl ((UnorderedSet.mem_insert_iff _ _ _).2 (Or.inl h)))
    · exact Or.inr (Or.inr h)
  | transitionTo target ct =>
    obtain ⟨h1, h2, h3⟩ := transitionTo_graph ct m target
    simp only [step]
    rw [h1, h2, h3]
    exact h
  | setInitialState s => exact h
  | setParentState c p => exact h
  | registerOnEnter l => exact h
  | registerOnExit l => exact h
  | registerOnTransition l => exact h
  | registerOnTransitionRefused l => exact h
  | registerGuard l => exact h

/-- No sequence of calls removes a structurally valid pair. -/
theorem isValidTransition_run [DecidableEq T] (ops : List (Op T L)) :
    ∀ (m : StateMachine T L) (a b : T), m.isValidTransition a b = true →
      (m.run ops).isValidTransition a b = true := by
  induction ops with
  | nil => intro m a b h; exact h
  | cons op ops ih => intro m a b h; exact ih _ a b (isValidTransition_step m op a b h)

/-- C8: after `addTransition(from, to)` the pair `(from, to)` is structurally
valid and stays so after any further calls, `addTransition` calls of the three
forms among them; a second `addTransition(from, to)` leaves the graph store, the
whole machine and therefore `isValidTransition` on every pair as they were after
the first. -/
theorem addTransition_valid_idempotent [DecidableEq T] (m : StateMachine T L) (src dst : T)
    (ops : List (Op T L)) :
    (m.addTransition src dst).isValidTransition src dst = true ∧
    ((m.addTransition src dst).run ops).isValidTransition src dst = true ∧
    (m.addTransition src dst).addTransition src dst = m.addTransition src dst ∧
    (∀ a b, ((m.addTransition src dst).addTransition src dst).isValidTransition a b =
      (m.addTransition src dst).isValidTransition a b) := by
  have h1 : (m.addTransition src dst).isValidTransition src dst = true := by
    rw [isValidTransition_eq_true]
    left
    refine ⟨_, UnorderedMap.find_modify_self _ _ _ _, ?_⟩
    exact (UnorderedSet.mem_insert_iff _ _ _).2 (Or.inr rfl)
  have h2 : (m.addTransition src dst).addTransition src dst = m.addTransition src dst := by
    simp only [addTransition]
    rw [UnorderedMap.modify_modify _ _ _ _ (fun v => UnorderedSet.insert_insert v dst)]
  refine ⟨h1, isValidTransition_run ops _ src dst h1, h2, ?_⟩
  intro a b
  rw [h2]

/-- The edge `Idle → Running` of the demonstration program stays valid when the
other edges and wildcards of the program are added after it. -/
theorem addTransition_valid_idempotent_witness :
    ((((fresh Demo.State.Idle : StateMachine Demo.State Demo.Listener).addTransition
        Demo.State.Idle Demo.State.Running).run
          [.addTransition Demo.State.Running Demo.State.Jumping,
           .addTransitionFromAny Demo.State.Dead,
           .addTransitionToAny Demo.State.Reset,
           .addTransition Demo.State.Idle Demo.State.Running]).isValidTransition
        Demo.State.Idle Demo.State.Running = true) :=
  (addTransition_valid_idempotent (fresh Demo.State.Idle) Demo.State.Idle Demo.State.Running
    [.addTransition Demo.State.Running Demo.State.Jumping,
     .addTransitionFromAny Demo.State.Dead,
     .addTransitionToAny Demo.State.Reset,
     .addTransition Demo.State.Idle Demo.State.Running]).2.1

/-! ## `backToPrevious` -/

/-- Reading one past the last element never yields an element. -/
theorem derefEnd_eq_none {α : Type} (v : List α) : derefEnd v = none := by
  unfold derefEnd
  exact List.get?_eq_none.2 (Nat.le_refl _)

/-- With a non-empty history `backToPrevious` reads its target outside the
history, whatever the entries are. -/
theorem backToPrevious_of_history_ne_nil [DecidableEq T] (ct : L → T → T → Bool)
    (m : StateMachine T L) (h : m.history ≠ []) : m.backToPrevious ct = none := by
  unfold backToPrevious
  have he : m.history.isEmpty = false := by
    cases hh : m.history with
    | nil => exact absurd hh h
    | cons a l => rfl
  simp [he, derefEnd_eq_none]

/-- C9 (evaluation of the code): in the demonstration program, after
`Idle → Running → Jumping → Dead`, the last history entry is `(Jumping, Dead)` and
`transitionTo(Jumping)` is refused with `InvalidTransition`; `backToPrevious` does
not behave as that call: it reads its target one past the last history entry, which
is outside the history. -/
theorem backToPrevious_demo :
    Demo.beforeUndo.history.getLast? = some (Demo.State.Jumping, Demo.State.Dead) ∧
    Demo.beforeUndo.transitionTo (Demo.jumpGuard 5) Demo.State.Jumping =
      ⟨false, Demo.beforeUndo,
        [⟨.onRefused Demo.Listener.logger Demo.State.Dead Demo.State.Jumping
            TransitionError.InvalidTransition,
          Demo.State.Dead, Demo.beforeUndo.history⟩]⟩ ∧
    Demo.beforeUndo.backToPrevious (Demo.jumpGuard 5) = none ∧
    Demo.beforeUndo.backToPrevious (Demo.jumpGuard 5) ≠
      some (Demo.beforeUndo.transitionTo (Demo.jumpGuard 5) Demo.State.Jumping) := by
  have hn : Demo.beforeUndo.backToPrevious (Demo.jumpGuard 5) = none :=
    backToPrevious_of_history_ne_nil _ _ (by decide)
  refine ⟨by decide, by decide, hn, ?_⟩
  rw [hn]
  exact fun h => Option.noConfusion h

/-- C10: with an empty history (initialised or not, whatever the graph, guards and
listeners), `backToPrevious()` returns false, calls no listener or guard of any
kind, and leaves the machine unchanged. -/
theorem backToPrevious_empty_history [DecidableEq T] (ct : L → T → T → Bool)
    (m : StateMachine T L) (h : m.getHistory = []) :
    m.backToPrevious ct = some ⟨false, m, []⟩ ∧
    (∀ o, m.backToPrevious ct = some o → o.result = false ∧ o.trace = [] ∧ o.machine = m) := by
  have h0 : m.history = [] := h
  have hb : m.backToPrevious ct = some ⟨false, m, []⟩ := by
    simp [backToPrevious, h0]
  refine ⟨hb, ?_⟩
  intro o ho
  rw [hb] at ho
  cases ho
  exact ⟨rfl, rfl, rfl⟩

/-- The configured machine of the demonstration program has made no transition
yet: `backToPrevious` returns false and no listener is called. -/
theorem backToPrevious_empty_history_witness :
    Demo.configured.getHistory = [] ∧
    Demo.configured.backToPrevious (Demo.jumpGuard 0) = some ⟨false, Demo.configured, []⟩ :=
  ⟨by decide,
   (backToPrevious_empty_history (Demo.jumpGuard 0) Demo.configured (by decide)).1⟩

end StateMachine

/-! ## The hierarchy -/

namespace UnorderedMap

variable {K V : Type}

/-- A key under which `find` succeeds is the key of an entry. -/
theorem mem_keys_of_find [DecidableEq K] (m : List (K × V)) (k : K) (v : V)
    (h : find m k = some v) : k ∈ m.map Prod.fst := by
  induction m with
  | nil => simp [find] at h
  | cons e rest ih =>
    rcases e with ⟨k1, v1⟩
    by_cases hk : k1 = k
    · simp [hk]
    · simp only [find, hk, if_false] at h
      simp [ih h]

end UnorderedMap

namespace StateMachine

variable {T L : Type}

theorem parentChain_succ [DecidableEq T] (h : List (T × T)) (k : Nat) (s : T) :
    parentChain h (k + 1) s = (UnorderedMap.find h s).bind (parentChain h k) := by
  cases hf : UnorderedMap.find h s <;> simp [parentChain, hf]

/-- Following `a + b` links is following `a` links and then `b` links. -/
theorem parentChain_add [DecidableEq T] (h : List (T × T)) (a b : Nat) :
    ∀ s : T, parentChain h (a + b) s = (parentChain h a s).bind (parentChain h b) := by
  induction a with
  | zero => intro s; simp [parentChain]
  | succ a ih =>
    intro s
    rw [Nat.succ_add, parentChain_succ, parentChain_succ]
    cases hf : UnorderedMap.find h s with
    | none => simp
    | some p => simp [ih p]

/-- A chain of `n` links has a chain of `j` links as its beginning. -/
theorem parentChain_initial [DecidableEq T] (h : List (T × T)) (n j : Nat) (s t : T)
    (hn : parentChain h n s = some t) (hj : j ≤ n) :
    ∃ u, parentChain h j s = some u ∧ parentChain h (n - j) u = some t := by
  have e : n = j + (n - j) := by omega
  rw [e, parentChain_add] at hn
  cases hu : parentChain h j s with
  | none => simp [hu] at hn
  | some u =>
    rw [hu] at hn
    exact ⟨u, rfl, hn⟩

/-- Past a state without parent there is no chain. -/
theorem parentChain_past_root [DecidableEq T] (h : List (T × T)) (n k : Nat) (s t : T)
    (hn : parentChain h n s = some t) (hroot : UnorderedMap.find h t = none)
    (hk : n < k) : parentChain h k s = none := by
  have e : k = n + ((k - n - 1) + 1) := by omega
  rw [e, parentChain_add, hn]
  simp [parentChain_succ, hroot]

/-- In an acyclic hierarchy a chain has at most as many links as the map has
entries: the states it leaves are pairwise different keys of the map. -/
theorem parentChain_length_le [DecidableEq T] (h : List (T × T)) (hac : Acyclic h)
    (n : Nat) (s t : T) (hn : parentChain h n s = some t) : n ≤ h.length := by
  have hinj : Set.InjOn (fun j => (parentChain h j s).getD s)
      (Finset.range n : Finset Nat) := by
    have key : ∀ i j, i < j → j < n →
        (parentChain h i s).getD s ≠ (parentChain h j s).getD s := by
      intro i j hij hjn heq
      obtain ⟨uj, huj, _⟩ := parentChain_initial h n j s t hn (Nat.le_of_lt hjn)
      obtain ⟨ui, hui, hrest⟩ := parentChain_initial h j i s uj huj (Nat.le_of_lt hij)
      rw [hui, huj] at heq
      simp only [Option.getD_some] at heq
      have e : j - i = (j - i - 1) + 1 := by omega
      rw [e, heq] at hrest
      exact hac uj _ hrest
    intro i hi j hj heq
    simp only [Finset.coe_range, Set.mem_Iio] at hi hj
    rcases Nat.lt_trichotomy i j with hlt | heq2 | hgt
    · exact absurd heq (key i j hlt hj)
    · exact heq2
    · exact absurd heq.symm (key j i hgt hi)
  have hmem : ∀ j ∈ Finset.range n,
      (fun j => (parentChain h j s).getD s) j ∈ (h.map Prod.fst).toFinset := by
    intro j hj
    have hjn : j + 1 ≤ n := Nat.succ_le_of_lt (Finset.mem_range.1 hj)
    obtain ⟨u1, hu1, _⟩ := parentChain_initial h n (j + 1) s t hn hjn
    obtain ⟨u, hu, hlink⟩ := parentChain_initial h (j + 1) j s u1 hu1 (Nat.le_succ j)
    have e : j + 1 - j = 0 + 1 := by omega
    rw [e, parentChain_succ] at hlink
    cases hf : UnorderedMap.find h u with
    | none => simp [hf] at hlink
    | some p =>
      simp only [hu, Option.getD_some, List.mem_toFinset]
      exact UnorderedMap.mem_keys_of_find h u p hf
  have hcard := Finset.card_le_card_of_injOn _ hmem hinj
  rw [Finset.card_range] at hcard
  calc n ≤ (h.map Prod.fst).toFinset.card := hcard
    _ ≤ (h.map Prod.fst).length := List.toFinset_card_le _
    _ = h.length := List.length_map _ _

end StateMachine

namespace StateMachine

variable {T L : Type}

/-- A loop that answers true after `n` executions of its body has followed `n`
links, at least one, and has arrived at `parent`. -/
theorem isSubstateOfLoop_true [DecidableEq T] (h : List (T × T)) (p : T) :
    ∀ (fuel : Nat) (c : T) (n : Nat), isSubstateOfLoop h p fuel c = some (true, n) →
      1 ≤ n ∧ parentChain h n c = some p := by
  intro fuel
  induction fuel with
  | zero => intro c n hl; simp [isSubstateOfLoop] at hl
  | succ fuel ih =>
    intro c n hl
    unfold isSubstateOfLoop at hl
    cases hf : UnorderedMap.find h c with
    | none => simp [hf] at hl
    | some next =>
      simp only [hf] at hl
      by_cases hp : next = p
      · simp only [hp, if_true, Option.some.injEq, Prod.mk.injEq, true_and] at hl
        subst hl
        simp [parentChain, hf, hp]
      · simp only [hp, if_false] at hl
        cases hr : isSubstateOfLoop h p fuel next with
        | none => simp [hr] at hl
        | some r =>
          rcases r with ⟨b, k⟩
          simp only [hr, Option.some.injEq, Prod.mk.injEq] at hl
          obtain ⟨hb, hk⟩ := hl
          subst hb hk
          obtain ⟨_, h2⟩ := ih next k hr
          refine ⟨Nat.succ_le_succ (Nat.zero_le _), ?_⟩
          simp [parentChain, hf, h2]

/-- A loop that answers false after `n` executions of its body has followed `n`
links to a state without parent, and no chain of one or more links from the
start arrives at `parent`. -/
theorem isSubstateOfLoop_false [DecidableEq T] (h : List (T × T)) (p : T) :
    ∀ (fuel : Nat) (c : T) (n : Nat), isSubstateOfLoop h p fuel c = some (false, n) →
      (∃ t, parentChain h n c = some t ∧ UnorderedMap.find h t = none) ∧
      ∀ k, parentChain h (k + 1) c ≠ some p := by
  intro fuel
  induction fuel with
  | zero => intro c n hl; simp [isSubstateOfLoop] at hl
  | succ fuel ih =>
    intro c n hl
    unfold isSubstateOfLoop at hl
    cases hf : UnorderedMap.find h c with
    | none =>
      simp only [hf, Option.some.injEq, Prod.mk.injEq, true_and] at hl
      subst hl
      refine ⟨⟨c, rfl, hf⟩, ?_⟩
      intro k
      simp [parentChain, hf]
    | some next =>
      simp only [hf] at hl
      by_cases hp : next = p
      · simp [hp] at hl
      · simp only [hp, if_false] at hl
        cases hr : isSubstateOfLoop h p fuel next with
        | none => simp [hr] at hl
        | some r =>
          rcases r with ⟨b, k⟩
          simp only [hr, Option.some.injEq, Prod.mk.injEq] at hl
          obtain ⟨hb, hk⟩ := hl
          subst hb hk
          obtain ⟨⟨t, ht, hroot⟩, hno⟩ := ih next k hr
          refine ⟨⟨t, ?_, hroot⟩, ?_⟩
          · simp [parentChain, hf, ht]
          · intro j
            cases j with
            | zero => simp [parentChain, hf, hp]
            | succ j =>
              have := hno j
              simpa [parentChain_succ h (j + 1) c, hf] using this

/-- A loop that reaches the bound has followed as many links as the bound. -/
theorem isSubstateOfLoop_none [DecidableEq T] (h : List (T × T)) (p : T) :
    ∀ (fuel : Nat) (c : T), isSubstateOfLoop h p fuel c = none →
      ∃ t, parentChain h fuel c = some t := by
  intro fuel
  induction fuel with
  | zero => intro c _; exact ⟨c, rfl⟩
  | succ fuel ih =>
    intro c hl
    unfold isSubstateOfLoop at hl
    cases hf : UnorderedMap.find h c with
    | none => simp [hf] at hl
    | some next =>
      simp only [hf] at hl
      by_cases hp : next = p
      · simp [hp] at hl
      · simp only [hp, if_false] at hl
        cases hr : isSubstateOfLoop h p fuel next with
        | none =>
          obtain ⟨t, ht⟩ := ih next hr
          exact ⟨t, by simp [parentChain, hf, ht]⟩
        | some r => simp [hr] at hl

/-- A larger bound does not change the result of a loop that ended. -/
theorem isSubstateOfLoop_mono [DecidableEq T] (h : List (T × T)) (p : T) :
    ∀ (fuel : Nat) (c : T) (r : Bool × Nat), isSubstateOfLoop h p fuel c = some r →
      ∀ fuel2, fuel ≤ fuel2 → isSubstateOfLoop h p fuel2 c = some r := by
  intro fuel
  induction fuel with
  | zero => intro c r hl; simp [isSubstateOfLoop] at hl
  | succ fuel ih =>
    intro c r hl fuel2 hle
    obtain ⟨f2, rfl⟩ : ∃ f2, fuel2 = f2 + 1 := ⟨fuel2 - 1, by omega⟩
    have hle2 : fuel ≤ f2 := by omega
    unfold isSubstateOfLoop at hl ⊢
    cases hf : UnorderedMap.find h c with
    | none => simpa [hf] using hl
    | some next =>
      simp only [hf] at hl ⊢
      by_cases hp : next = p
      · simpa [hp] using hl
      · simp only [hp, if_false] at hl ⊢
        cases hr : isSubstateOfLoop h p fuel next with
        | none => simp [hr] at hl
        | some r1 =>
          rw [ih next r1 hr f2 hle2]
          simpa [hr] using hl

/-- In an acyclic hierarchy the loop ends within one evaluation of its condition
more than the map has entries, after at most as many executions of its body as
the map has entries. -/
theorem isSubstateOfLoop_ends [DecidableEq T] (h : List (T × T)) (hac : Acyclic h)
    (p c : T) (fuel : Nat) (hfuel : h.length < fuel) :
    ∃ b n, isSubstateOfLoop h p fuel c = some (b, n) ∧ n ≤ h.length := by
  cases hl : isSubstateOfLoop h p fuel c with
  | none =>
    obtain ⟨t, ht⟩ := isSubstateOfLoop_none h p fuel c hl
    have := parentChain_length_le h hac fuel c t ht
    omega
  | some r =>
    rcases r with ⟨b, n⟩
    refine ⟨b, n, rfl, ?_⟩
    cases b with
    | true =>
      exact parentChain_length_le h hac n c p (isSubstateOfLoop_true h p fuel c n hl).2
    | false =>
      obtain ⟨⟨t, ht, _⟩, _⟩ := isSubstateOfLoop_false h p fuel c n hl
      exact parentChain_length_le h hac n c t ht

end StateMachine

namespace StateMachine

variable {T L : Type}

/-- The hierarchy of `Demo.nested` is acyclic: no chain has more than two links. -/
theorem nested_acyclic : Acyclic Demo.nested.hierarchy := by
  have hh : Demo.nested.hierarchy =
      [(Demo.State.Jumping, Demo.State.Running), (Demo.State.Running, Demo.State.Reset),
       (Demo.State.Idle, Demo.State.Reset)] := by decide
  rw [hh]
  intro s k
  cases s <;> rcases k with _ | _ | k <;> simp [parentChain, UnorderedMap.find]

/-- When `isSubstateOf` answers true in an acyclic hierarchy. -/
theorem isSubstateOf_true_iff [DecidableEq T] (m : StateMachine T L)
    (hac : Acyclic m.hierarchy) (fuel : Nat) (hfuel : m.hierarchy.length < fuel)
    (child ancestor : T) :
    m.isSubstateOf fuel child ancestor = some true ↔
      ∃ k, 1 ≤ k ∧ parentChain m.hierarchy k child = some ancestor := by
  obtain ⟨b, n, hl, _⟩ := isSubstateOfLoop_ends m.hierarchy hac ancestor child fuel hfuel
  unfold isSubstateOf
  rw [hl]
  cases b with
  | true =>
    obtain ⟨h1, h2⟩ := isSubstateOfLoop_true m.hierarchy ancestor fuel child n hl
    simp only [true_iff]
    exact ⟨n, h1, h2⟩
  | false =>
    obtain ⟨_, hno⟩ := isSubstateOfLoop_false m.hierarchy ancestor fuel child n hl
    simp only [Option.some.injEq, Bool.false_eq_true, false_iff]
    rintro ⟨k, hk, hc⟩
    obtain ⟨j, rfl⟩ : ∃ j, k = j + 1 := ⟨k - 1, by omega⟩
    exact hno j hc

/-- In an acyclic hierarchy `isSubstateOf` answers, and it answers false exactly
when it does not answer true. -/
theorem isSubstateOf_false_iff [DecidableEq T] (m : StateMachine T L)
    (hac : Acyclic m.hierarchy) (fuel : Nat) (hfuel : m.hierarchy.length < fuel)
    (child ancestor : T) :
    m.isSubstateOf fuel child ancestor = some false ↔
      ¬ ∃ k, 1 ≤ k ∧ parentChain m.hierarchy k child = some ancestor := by
  rw [← isSubstateOf_true_iff m hac fuel hfuel child ancestor]
  obtain ⟨b, n, hl, _⟩ := isSubstateOfLoop_ends m.hierarchy hac ancestor child fuel hfuel
  unfold isSubstateOf
  rw [hl]
  cases b <;> simp

/-- C11: in an acyclic hierarchy `isSubstateOf(child, ancestor)` returns true if
and only if `ancestor` is reached from `child` by following one or more parent
links, and false otherwise; in particular it returns false when the chain ends at
a state without parent and has not met `ancestor`.  The chain does not contain
`child` itself: `isSubstateOf(s, s)` is false.  The result is the same for every
bound on the loop that exceeds the number of entries of the map. -/
theorem isSubstateOf_iff [DecidableEq T] (m : StateMachine T L)
    (hac : Acyclic m.hierarchy) (fuel : Nat) (hfuel : m.hierarchy.length < fuel)
    (child ancestor : T) :
    (m.isSubstateOf fuel child ancestor = some true ↔
      ∃ k, 1 ≤ k ∧ parentChain m.hierarchy k child = some ancestor) ∧
    (m.isSubstateOf fuel child ancestor = some false ↔
      ¬ ∃ k, 1 ≤ k ∧ parentChain m.hierarchy k child = some ancestor) ∧
    (∀ n t, parentChain m.hierarchy n child = some t →
      UnorderedMap.find m.hierarchy t = none →
      (∀ k, 1 ≤ k → k ≤ n → parentChain m.hierarchy k child ≠ some ancestor) →
      m.isSubstateOf fuel child ancestor = some false) ∧
    m.isSubstateOf fuel child child = some false := by
  refine ⟨isSubstateOf_true_iff m hac fuel hfuel child ancestor,
    isSubstateOf_false_iff m hac fuel hfuel child ancestor, ?_, ?_⟩
  · intro n t hn hroot hno
    rw [isSubstateOf_false_iff m hac fuel hfuel child ancestor]
    rintro ⟨k, hk, hc⟩
    by_cases hkn : k ≤ n
    · exact hno k hk hkn hc
    · have := parentChain_past_root m.hierarchy n k child t hn hroot (by omega)
      rw [this] at hc
      cases hc
  · rw [isSubstateOf_false_iff m hac fuel hfuel child child]
    rintro ⟨k, hk, hc⟩
    obtain ⟨j, rfl⟩ : ∃ j, k = j + 1 := ⟨k - 1, by omega⟩
    exact hac child j hc

/-- In the hierarchy `Jumping` under `Running` under `Reset`, `Jumping` is a
substate of `Reset`, two links up, and not of itself. -/
theorem isSubstateOf_iff_witness :
    (Demo.nested.isSubstateOf 4 Demo.State.Jumping Demo.State.Reset = some true ↔
      ∃ k, 1 ≤ k ∧
        parentChain Demo.nested.hierarchy k Demo.State.Jumping = some Demo.State.Reset) ∧
    Demo.nested.isSubstateOf 4 Demo.State.Jumping Demo.State.Reset = some true ∧
    Demo.nested.isSubstateOf 4 Demo.State.Jumping Demo.State.Jumping = some false :=
  ⟨(isSubstateOf_iff Demo.nested nested_acyclic 4 (by decide)
      Demo.State.Jumping Demo.State.Reset).1,
   by decide,
   (isSubstateOf_iff Demo.nested nested_acyclic 4 (by decide)
      Demo.State.Jumping Demo.State.Reset).2.2.2⟩

/-- C16: in an acyclic hierarchy the parent-chain walk of `isSubstateOf(child,
ancestor)` terminates: for every bound that exceeds the number of entries of the
hierarchy map the loop ends, with one and the same answer, after at most as many
executions of its body as the map has entries. -/
theorem isSubstateOf_terminates [DecidableEq T] (m : StateMachine T L)
    (hac : Acyclic m.hierarchy) (child ancestor : T) :
    ∃ b n, n ≤ m.hierarchy.length ∧
      ∀ fuel, m.hierarchy.length < fuel →
        isSubstateOfLoop m.hierarchy ancestor fuel child = some (b, n) ∧
        m.isSubstateOf fuel child ancestor = some b := by
  obtain ⟨b, n, hl, hn⟩ := isSubstateOfLoop_ends m.hierarchy hac ancestor child
    (m.hierarchy.length + 1) (Nat.lt_succ_self _)
  refine ⟨b, n, hn, ?_⟩
  intro fuel hfuel
  have h2 := isSubstateOfLoop_mono m.hierarchy ancestor _ child (b, n) hl fuel hfuel
  refine ⟨h2, ?_⟩
  unfold isSubstateOf
  rw [h2]

/-- The walk from `Jumping` in the hierarchy of `Demo.nested`, a map of three
entries, ends after two executions of the loop body. -/
theorem isSubstateOf_terminates_witness :
    (∃ b n, n ≤ Demo.nested.hierarchy.length ∧
      ∀ fuel, Demo.nested.hierarchy.length < fuel →
        isSubstateOfLoop Demo.nested.hierarchy Demo.State.Idle fuel Demo.State.Jumping
          = some (b, n) ∧
        Demo.nested.isSubstateOf fuel Demo.State.Jumping Demo.State.Idle = some b) ∧
    isSubstateOfLoop Demo.nested.hierarchy Demo.State.Idle 4 Demo.State.Jumping
      = some (false, 2) :=
  ⟨isSubstateOf_terminates Demo.nested nested_acyclic Demo.State.Jumping Demo.State.Idle,
   by decide⟩

end StateMachine

/-! ## Scenarios -/

namespace StateMachine

variable {T L : Type}

theorem run_append [DecidableEq T] (ops1 ops2 : List (Op T L)) :
    ∀ m : StateMachine T L, m.run (ops1 ++ ops2) = (m.run ops1).run ops2 := by
  induction ops1 with
  | nil => intro m; rfl
  | cons op ops ih => intro m; simp [run, ih]

/-- Registering refusal listeners appends them to the refusal registry. -/
theorem run_registerOnTransitionRefused [DecidableEq T] (rs : List L) :
    ∀ m : StateMachine T L, m.run (rs.map Op.registerOnTransitionRefused) =
      { m with onTransitionRefused := m.onTransitionRefused ++ rs } := by
  induction rs with
  | nil => intro m; simp [run]
  | cons r rs ih =>
    intro m
    simp [run, step, registerOnTransitionRefused, ih]

/-- The data members of `twoEdges`. -/
theorem twoEdges_eq [DecidableEq T] (d : T) (rs : List L) (A B C : T) (hAB : A ≠ B) :
    twoEdges d rs A B C =
      { current := A, hasState := true, transition := [(A, [B]), (B, [C])],
        globalTransitions := [], wildCardSources := [], history := [], hierarchy := [],
        onEnter := [], onExit := [], onTransition := [], onTransitionRefused := rs,
        onTransitionGuard := [] } := by
  unfold twoEdges
  rw [run_append, run_registerOnTransitionRefused]
  simp [run, step, fresh, addTransition, setInitialState, UnorderedMap.modify,
    UnorderedSet.insert, hAB]

/-- C12: for pairwise different `A`, `B`, `C`, on a fresh machine configured only
with `addTransition(A, B)`, `addTransition(B, C)` and `setInitialState(A)` (and with
the refusal listeners `rs`, none in the plain case), the calls `transitionTo(C)`,
`transitionTo(B)`, `transitionTo(C)` return false, true, true; the first is refused
with `InvalidTransition` and leaves the state `A` and the empty history; at the end
the current state is `C` and the history is `[(A, B), (B, C)]`. -/
theorem transitionTo_two_edges [DecidableEq T] (d : T) (rs : List L) (A B C : T)
    (hAB : A ≠ B) (hBC : B ≠ C) (hAC : A ≠ C) (ct1 ct2 ct3 : L → T → T → Bool) :
    ((twoEdges d rs A B C).transitionTo ct1 C).result = false ∧
    ((twoEdges d rs A B C).transitionTo ct1 C).trace =
      (rs.map fun l => (⟨.onRefused l A C .InvalidTransition, A, []⟩ : Invocation T L)) ∧
    firstFailingCheck (twoEdges d rs A B C) C = .InvalidTransition ∧
    ((twoEdges d rs A B C).transitionTo ct1 C).machine.getCurrentState = A ∧
    ((twoEdges d rs A B C).transitionTo ct1 C).machine.getHistory = [] ∧
    (((twoEdges d rs A B C).run [.transitionTo C ct1]).transitionTo ct2 B).result = true ∧
    (((twoEdges d rs A B C).run [.transitionTo C ct1, .transitionTo B ct2]).transitionTo
      ct3 C).result = true ∧
    ((twoEdges d rs A B C).run [.transitionTo C ct1, .transitionTo B ct2,
      .transitionTo C ct3]).getCurrentState = C ∧
    ((twoEdges d rs A B C).run [.transitionTo C ct1, .transitionTo B ct2,
      .transitionTo C ct3]).getHistory = [(A, B), (B, C)] := by
  have hBA : ¬ B = A := fun e => hAB e.symm
  have hCB : ¬ C = B := fun e => hBC e.symm
  have hCA : ¬ C = A := fun e => hAC e.symm
  rw [twoEdges_eq d rs A B C hAB]
  simp [run, step, transitionTo, isValidTransition, firstFailingCheck, notifyRefused,
    guardLoop, UnorderedMap.find, UnorderedSet.count, getCurrentState, getHistory,
    hAB, hBC, hAC, hBA, hCB, hCA]

/-- The chain `Idle → Running → Jumping` with the logger as refusal listener. -/
theorem transitionTo_two_edges_witness :
    ((twoEdges Demo.State.Idle [Demo.Listener.logger] Demo.State.Idle Demo.State.Running
        Demo.State.Jumping).transitionTo (Demo.jumpGuard 0) Demo.State.Jumping).trace =
      [⟨.onRefused Demo.Listener.logger Demo.State.Idle Demo.State.Jumping
          TransitionError.InvalidTransition, Demo.State.Idle, []⟩] ∧
    ((twoEdges Demo.State.Idle [Demo.Listener.logger] Demo.State.Idle Demo.State.Running
        Demo.State.Jumping).run
      [.transitionTo Demo.State.Jumping (Demo.jumpGuard 0),
       .transitionTo Demo.State.Running (Demo.jumpGuard 0),
       .transitionTo Demo.State.Jumping (Demo.jumpGuard 0)]).getHistory =
      [(Demo.State.Idle, Demo.State.Running), (Demo.State.Running, Demo.State.Jumping)] :=
  ⟨(transitionTo_two_edges Demo.State.Idle [Demo.Listener.logger] Demo.State.Idle
      Demo.State.Running Demo.State.Jumping (by decide) (by decide) (by decide)
      (Demo.jumpGuard 0) (Demo.jumpGuard 0) (Demo.jumpGuard 0)).2.1,
   (transitionTo_two_edges Demo.State.Idle [Demo.Listener.logger] Demo.State.Idle
      Demo.State.Running Demo.State.Jumping (by decide) (by decide) (by decide)
      (Demo.jumpGuard 0) (Demo.jumpGuard 0) (Demo.jumpGuard 0)).2.2.2.2.2.2.2.2⟩

/-- C13: once `D` is registered as wildcard target with `addTransition(Any, D)`,
whatever calls follow and whatever explicit edges exist, `transitionTo(D)` returns
true on an initialised machine whose current state differs from `D` whenever every
registered guard permits the pair; `D` is structurally reachable from every
state. -/
theorem transitionTo_wildcard_target [DecidableEq T] (m : StateMachine T L) (D : T)
    (ops : List (Op T L)) (ct : L → T → T → Bool)
    (hs : ((m.addTransitionFromAny D).run ops).hasState = true)
    (hc : ((m.addTransitionFromAny D).run ops).current ≠ D)
    (hg : ∀ g ∈ ((m.addTransitionFromAny D).run ops).onTransitionGuard,
      ct g ((m.addTransitionFromAny D).run ops).current D = true) :
    (((m.addTransitionFromAny D).run ops).transitionTo ct D).result = true ∧
    ∀ S, ((m.addTransitionFromAny D).run ops).isValidTransition S D = true := by
  have hv : ∀ S, ((m.addTransitionFromAny D).run ops).isValidTransition S D = true := by
    intro S
    apply isValidTransition_run
    rw [isValidTransition_eq_true]
    right; left
    exact (UnorderedSet.mem_insert_iff _ _ _).2 (Or.inr rfl)
  refine ⟨?_, hv⟩
  rw [transitionTo_result]
  exact ⟨hs, fun e => hc e.symm, hv _, hg⟩

/-- With `Dead` as only configured target and no explicit edge, `Jumping → Dead`
succeeds under the guard of the demonstration program. -/
theorem transitionTo_wildcard_target_witness :
    ((((fresh Demo.State.Idle : StateMachine Demo.State Demo.Listener).addTransitionFromAny
        Demo.State.Dead).run
          [.setInitialState Demo.State.Jumping, .registerGuard Demo.Listener.guard]).transitionTo
        (Demo.jumpGuard 0) Demo.State.Dead).result = true :=
  (transitionTo_wildcard_target (fresh Demo.State.Idle) Demo.State.Dead
    [.setInitialState Demo.State.Jumping, .registerGuard Demo.Listener.guard]
    (Demo.jumpGuard 0) (by decide) (by decide) (by decide)).1

/-- C15: `setInitialState(s)` makes the machine initialised with current state `s`
whatever the machine was before; it makes no call on a listener or guard, and it
leaves the history, the graph store, the hierarchy and the five registries as they
were. -/
theorem setInitialState_frame [DecidableEq T] (m : StateMachine T L) (s : T) :
    (m.setInitialState s).hasState = true ∧
    (m.setInitialState s).getCurrentState = s ∧
    m.step (.setInitialState s) = m.setInitialState s ∧
    m.stepTrace (.setInitialState s) = [] ∧
    (m.setInitialState s).getHistory = m.getHistory ∧
    (m.setInitialState s).transition = m.transition ∧
    (m.setInitialState s).globalTransitions = m.globalTransitions ∧
    (m.setInitialState s).wildCardSources = m.wildCardSources ∧
    (m.setInitialState s).hierarchy = m.hierarchy ∧
    (m.setInitialState s).onEnter = m.onEnter ∧
    (m.setInitialState s).onExit = m.onExit ∧
    (m.setInitialState s).onTransition = m.onTransition ∧
    (m.setInitialState s).onTransitionRefused = m.onTransitionRefused ∧
    (m.setInitialState s).onTransitionGuard = m.onTransitionGuard :=
  ⟨rfl, rfl, rfl, rfl, rfl, rfl, rfl, rfl, rfl, rfl, rfl, rfl, rfl, rfl⟩

/-- The guard loop does not read the hierarchy. -/
theorem guardLoop_hierarchy (ct : L → T → T → Bool) (m : StateMachine T L) (target : T)
    (h2 : List (T × T)) (gs : List L) :
    guardLoop ct { m with hierarchy := h2 } target gs = guardLoop ct m target gs := by
  induction gs with
  | nil => rfl
  | cons g rest ih => simp [guardLoop, ih]

/-- The outcome of `transitionTo` on a machine whose hierarchy is replaced. -/
theorem transitionTo_hierarchy [DecidableEq T] (ct : L → T → T → Bool)
    (m : StateMachine T L) (target : T) (h2 : List (T × T)) :
    transitionTo ct { m with hierarchy := h2 } target =
      ⟨(m.transitionTo ct target).result,
        { (m.transitionTo ct target).machine with hierarchy := h2 },
        (m.transitionTo ct target).trace⟩ := by
  have hv : isValidTransition { m with hierarchy := h2 } m.current target =
      m.isValidTransition m.current target := rfl
  unfold transitionTo
  simp only [guardLoop_hierarchy, hv]
  cases hs : m.hasState
  · simp [notifyRefused, hs]
  · by_cases hc : m.current = target
    · simp [hc, notifyRefused, hs]
    · cases hvt : m.isValidTransition m.current target
      · simp [hc, notifyRefused, hs]
      · cases hg : (guardLoop ct m target m.onTransitionGuard).1 <;>
          simp [hc, notifyRefused, hs]

/-- C17: `transitionTo` does not consult the hierarchy: on two machines that differ
only in their hierarchy maps it returns the same result, makes the same calls with
the same refusal reason and yields the same current state and history; and it never
changes the hierarchy map. -/
theorem transitionTo_ignores_hierarchy [DecidableEq T] (ct : L → T → T → Bool)
    (m : StateMachine T L) (target : T) (h2 : List (T × T)) (child parent : T) :
    (transitionTo ct { m with hierarchy := h2 } target).result =
      (m.transitionTo ct target).result ∧
    (transitionTo ct { m with hierarchy := h2 } target).trace =
      (m.transitionTo ct target).trace ∧
    firstFailingCheck { m with hierarchy := h2 } target = firstFailingCheck m target ∧
    (transitionTo ct { m with hierarchy := h2 } target).machine.getCurrentState =
      (m.transitionTo ct target).machine.getCurrentState ∧
    (transitionTo ct { m with hierarchy := h2 } target).machine.getHistory =
      (m.transitionTo ct target).machine.getHistory ∧
    (transitionTo ct { m with hierarchy := h2 } target).machine.hierarchy = h2 ∧
    (m.transitionTo ct target).machine.hierarchy = m.hierarchy ∧
    ((m.setParentState child parent).transitionTo ct target).result =
      (m.transitionTo ct target).result ∧
    ((m.setParentState child parent).transitionTo ct target).trace =
      (m.transitionTo ct target).trace := by
  have hm : (m.transitionTo ct target).machine.hierarchy = m.hierarchy := by
    cases h : (m.transitionTo ct target).result
    · rw [(transitionTo_refused ct m target h).1]
    · rw [(transitionTo_accepted ct m target h).1]
  have e1 := transitionTo_hierarchy ct m target h2
  have e2 : (m.setParentState child parent).transitionTo ct target = _ :=
    transitionTo_hierarchy ct m target
      (UnorderedMap.modify m.hierarchy child parent (fun _ => parent))
  refine ⟨by rw [e1], by rw [e1], rfl, by rw [e1]; rfl, by rw [e1]; rfl, by rw [e1], hm,
    by rw [e2], by rw [e2]⟩

/-- C18: a refused `transitionTo` changes nothing: the current state, the
initialised flag, the history, the explicit edges, both wildcard sets, the hierarchy
and the five registries are as before the call. -/
theorem transitionTo_refusal_atomic [DecidableEq T] (ct : L → T → T → Bool)
    (m : StateMachine T L) (target : T)
    (h : (m.transitionTo ct target).result = false) :
    (m.transitionTo ct target).machine = m ∧
    (m.transitionTo ct target).machine.current = m.current ∧
    (m.transitionTo ct target).machine.hasState = m.hasState ∧
    (m.transitionTo ct target).machine.history = m.history ∧
    (m.transitionTo ct target).machine.transition = m.transition ∧
    (m.transitionTo ct target).machine.globalTransitions = m.globalTransitions ∧
    (m.transitionTo ct target).machine.wildCardSources = m.wildCardSources ∧
    (m.transitionTo ct target).machine.hierarchy = m.hierarchy ∧
    (m.transitionTo ct target).machine.onEnter = m.onEnter ∧
    (m.transitionTo ct target).machine.onExit = m.onExit ∧
    (m.transitionTo ct target).machine.onTransition = m.onTransition ∧
    (m.transitionTo ct target).machine.onTransitionRefused = m.onTransitionRefused ∧
    (m.transitionTo ct target).machine.onTransitionGuard = m.onTransitionGuard := by
  have hm := (transitionTo_refused ct m target h).1
  rw [hm]
  exact ⟨rfl, rfl, rfl, rfl, rfl, rfl, rfl, rfl, rfl, rfl, rfl, rfl, rfl⟩

/-- The vetoed request `Running → Jumping` of the demonstration program leaves the
machine as it was. -/
theorem transitionTo_refusal_atomic_witness :
    ((Demo.configured.run [.transitionTo Demo.State.Running (Demo.jumpGuard 0)]).transitionTo
      (Demo.jumpGuard 0) Demo.State.Jumping).result = false ∧
    ((Demo.configured.run [.transitionTo Demo.State.Running (Demo.jumpGuard 0)]).transitionTo
      (Demo.jumpGuard 0) Demo.State.Jumping).machine =
      Demo.configured.run [.transitionTo Demo.State.Running (Demo.jumpGuard 0)] :=
  ⟨by decide,
   (transitionTo_refusal_atomic (Demo.jumpGuard 0)
      (Demo.configured.run [.transitionTo Demo.State.Running (Demo.jumpGuard 0)])
      Demo.State.Jumping (by decide)).1⟩

end StateMachine

/-! ## Invariants of the history -/

namespace StateMachine

variable {T L : Type}

/-- What one call does to the history, the current state and the initialised flag:
either the history is kept, or the call is a `transitionTo` that returned true and
appended the pair of the old and the new current state. -/
theorem step_cases [DecidableEq T] (m : StateMachine T L) (op : Op T L) :
    ((m.step op).history = m.history ∧ m.stepSuccesses op = 0 ∧
      (op.isSetInitialState = false →
        (m.step op).current = m.current ∧ (m.step op).hasState = m.hasState)) ∨
    (∃ t ct, op = .transitionTo t ct ∧ (m.transitionTo ct t).result = true ∧
      m.stepSuccesses op = 1 ∧ (m.step op).history = m.history ++ [(m.current, t)] ∧
      (m.step op).current = t ∧ (m.step op).hasState = true) := by
  cases op with
  | transitionTo t ct =>
    cases h : (m.transitionTo ct t).result
    · left
      have hm := (transitionTo_refused ct m t h).1
      simp [step, stepSuccesses, h, hm]
    · right
      have hm := (transitionTo_accepted ct m t h).1
      have hs := ((transitionTo_result ct m t).1 h).1
      exact ⟨t, ct, rfl, h, by simp [stepSuccesses, h], by simp [step, hm],
        by simp [step, hm], by simp [step, hm, hs]⟩
  | setInitialState s => left; simp [step, stepSuccesses, setInitialState, Op.isSetInitialState]
  | addTransition a b => left; simp [step, stepSuccesses, addTransition]
  | addTransitionToAny a => left; simp [step, stepSuccesses, addTransitionToAny]
  | addTransitionFromAny b => left; simp [step, stepSuccesses, addTransitionFromAny]
  | setParentState c p => left; simp [step, stepSuccesses, setParentState]
  | registerOnEnter l => left; simp [step, stepSuccesses, registerOnEnter]
  | registerOnExit l => left; simp [step, stepSuccesses, registerOnExit]
  | registerOnTransition l => left; simp [step, stepSuccesses, registerOnTransition]
  | registerOnTransitionRefused l =>
    left; simp [step, stepSuccesses, registerOnTransitionRefused]
  | registerGuard l => left; simp [step, stepSuccesses, registerGuard]

/-- One call appends to the history as many entries as it counts successful
`transitionTo` calls. -/
theorem stepCall_history [DecidableEq T] (m m1 : StateMachine T L) (c : Call T L) (k : Nat)
    (h : m.stepCall c = some (m1, k)) :
    ∃ suffix, m1.history = m.history ++ suffix ∧ suffix.length = k := by
  cases c with
  | op o =>
    simp only [stepCall, Option.some.injEq, Prod.mk.injEq] at h
    obtain ⟨h1, h2⟩ := h
    subst h1 h2
    rcases step_cases m o with ⟨hh, hk, _⟩ | ⟨t, ct, _, _, hk, hh, _⟩
    · exact ⟨[], by simp [hh], by simp [hk]⟩
    · exact ⟨[(m.current, t)], hh, by simp [hk]⟩
  | backToPrevious read ct =>
    have hb : ∃ o, m.backToPreviousReading read ct = some o ∧ o.machine = m1 ∧
        (if o.result then 1 else 0) = k := by
      unfold stepCall at h
      cases ho : m.backToPreviousReading read ct with
      | none => simp [ho] at h
      | some o =>
        simp only [ho, Option.some.injEq, Prod.mk.injEq] at h
        exact ⟨o, rfl, h.1, h.2⟩
    obtain ⟨o, ho, rfl, rfl⟩ := hb
    have ho2 : o = ⟨false, m, []⟩ ∨ ∃ e : T × T, o = m.transitionTo ct e.1 := by
      unfold backToPreviousReading at ho
      cases he : m.history.isEmpty
      · cases read with
        | none => simp [he] at ho
        | some e =>
          simp only [he, Bool.false_eq_true, if_false, Option.some.injEq] at ho
          exact Or.inr ⟨e, ho.symm⟩
      · simp only [he, if_true, Option.some.injEq] at ho
        exact Or.inl ho.symm
    rcases ho2 with rfl | ⟨e, rfl⟩
    · exact ⟨[], by simp, by simp⟩
    · rcases step_cases m (.transitionTo e.1 ct) with ⟨hh, hk, _⟩ | ⟨t, ct2, _, _, hk, hh, _⟩
      · exact ⟨[], by simpa [step] using hh, by simpa [stepSuccesses] using hk.symm⟩
      · exact ⟨[(m.current, t)], by simpa [step] using hh,
          by simpa [stepSuccesses] using hk.symm⟩

/-- A sequence of calls appends to the history as many entries as it counts
successful `transitionTo` calls. -/
theorem runCalls_history [DecidableEq T] (calls : List (Call T L)) :
    ∀ (m m2 : StateMachine T L) (n : Nat), m.runCalls calls = some (m2, n) →
      ∃ suffix, m2.history = m.history ++ suffix ∧ suffix.length = n := by
  induction calls with
  | nil =>
    intro m m2 n h
    simp only [runCalls, Option.some.injEq, Prod.mk.injEq] at h
    obtain ⟨h1, h2⟩ := h
    subst h1 h2
    exact ⟨[], by simp, rfl⟩
  | cons c cs ih =>
    intro m m2 n h
    unfold runCalls at h
    cases hc : m.stepCall c with
    | none => simp [hc] at h
    | some r =>
      rcases r with ⟨m1, k⟩
      simp only [hc] at h
      cases hr : m1.runCalls cs with
      | none => simp [hr] at h
      | some r2 =>
        rcases r2 with ⟨m3, n3⟩
        simp only [hr, Option.some.injEq, Prod.mk.injEq] at h
        obtain ⟨h1, h2⟩ := h
        subst h1 h2
        obtain ⟨s1, e1, l1⟩ := stepCall_history m m1 c k hc
        obtain ⟨s2, e2, l2⟩ := ih m1 m3 n3 hr
        exact ⟨s1 ++ s2, by rw [e2, e1, List.append_assoc], by simp [l1, l2]⟩

/-- A defined run of a sequence of calls is made of a defined run of its beginning
and a defined run of its rest. -/
theorem runCalls_append [DecidableEq T] (pre post : List (Call T L)) :
    ∀ (m m2 : StateMachine T L) (n : Nat), m.runCalls (pre ++ post) = some (m2, n) →
      ∃ m1 n1 n2, m.runCalls pre = some (m1, n1) ∧ m1.runCalls post = some (m2, n2) ∧
        n = n1 + n2 := by
  induction pre with
  | nil =>
    intro m m2 n h
    exact ⟨m, 0, n, rfl, h, by simp⟩
  | cons c cs ih =>
    intro m m2 n h
    simp only [List.cons_append] at h
    unfold runCalls at h
    cases hc : m.stepCall c with
    | none => simp [hc] at h
    | some r =>
      rcases r with ⟨m1, k⟩
      simp only [hc] at h
      cases hr : m1.runCalls (cs ++ post) with
      | none => simp [hr] at h
      | some r2 =>
        rcases r2 with ⟨m3, n3⟩
        simp only [hr, Option.some.injEq, Prod.mk.injEq] at h
        obtain ⟨h1, h2⟩ := h
        subst h1 h2
        obtain ⟨ma, na, nb, ha, hb, hn⟩ := ih m1 m3 n3 hr
        refine ⟨ma, k + na, nb, by simp [runCalls, hc, ha], hb, by omega⟩

/-- A sequence of calls none of which is `backToPrevious` has a defined run. -/
theorem runCalls_ops [DecidableEq T] (ops : List (Op T L)) :
    ∀ m : StateMachine T L, ∃ k, m.runCalls (ops.map Call.op) = some (m.run ops, k) := by
  induction ops with
  | nil => intro m; exact ⟨0, rfl⟩
  | cons op ops ih =>
    intro m
    obtain ⟨k, hk⟩ := ih (m.step op)
    exact ⟨m.stepSuccesses op + k, by simp [runCalls, stepCall, run, hk]⟩

end StateMachine

namespace StateMachine

variable {T L : Type}

/-- C14: for every sequence of calls of the public members on a fresh machine
(`backToPrevious` counted through the `transitionTo` call it issues) that has a
defined run, the length of `getHistory()` is the number of `transitionTo` calls that
returned true; the history after any beginning of the sequence is an initial part
of the final history, so no entry is ever removed, reordered or rewritten.  A
sequence without `backToPrevious` always has a defined run. -/
theorem history_length_eq_successes [DecidableEq T] (d : T) (calls : List (Call T L))
    (m : StateMachine T L) (n : Nat) (h : (fresh d).runCalls calls = some (m, n)) :
    m.getHistory.length = n ∧
    (∀ pre post, calls = pre ++ post →
      ∃ m1 n1, (fresh d).runCalls pre = some (m1, n1) ∧ m1.getHistory.length = n1 ∧
        m1.getHistory <+: m.getHistory) ∧
    (∀ ops : List (Op T L),
      ∃ k, (fresh d : StateMachine T L).runCalls (ops.map Call.op) =
        some ((fresh d).run ops, k)) := by
  refine ⟨?_, ?_, fun ops => runCalls_ops ops (fresh d)⟩
  · obtain ⟨suffix, e, l⟩ := runCalls_history calls (fresh d) m n h
    simp [getHistory, e, fresh, l]
  · intro pre post hcalls
    subst hcalls
    obtain ⟨m1, n1, n2, h1, h2, _⟩ := runCalls_append pre post (fresh d) m n h
    obtain ⟨s1, e1, l1⟩ := runCalls_history pre (fresh d) m1 n1 h1
    obtain ⟨s2, e2, _⟩ := runCalls_history post m1 m n2 h2
    refine ⟨m1, n1, h1, ?_, ?_⟩
    · simp [getHistory, e1, fresh, l1]
    · exact ⟨s2, e2.symm⟩

/-- The demonstration program: six `transitionTo` calls are issued, one of them by
`backToPrevious`; three return true and the history has three entries. -/
theorem history_length_eq_successes_witness :
    (fresh Demo.State.Idle).runCalls Demo.program = some (Demo.beforeUndo, 3) ∧
    Demo.beforeUndo.getHistory.length = 3 :=
  ⟨by decide,
   (history_length_eq_successes Demo.State.Idle Demo.program Demo.beforeUndo 3
      (by decide)).1⟩

/-- Appending the pair of the end of a path and a new state gives a path that ends
at the new state. -/
theorem pathEnd_append [DecidableEq T] (hist : List (T × T)) :
    ∀ (s c t : T), pathEnd s hist = some c → pathEnd s (hist ++ [(c, t)]) = some t := by
  induction hist with
  | nil =>
    intro s c t h
    simp only [pathEnd, Option.some.injEq] at h
    simp [pathEnd, h]
  | cons e rest ih =>
    intro s c t h
    by_cases he : e.1 = s
    · simp only [pathEnd, he, if_true] at h
      simp [pathEnd, he, ih e.2 c t h]
    · simp [pathEnd, he] at h

/-- A history that `pathEnd` reads from `s` to `c` is a connected path from `s` to
`c`. -/
theorem pathEnd_spec [DecidableEq T] (hist : List (T × T)) :
    ∀ (s c : T), pathEnd s hist = some c →
      (hist = [] → c = s) ∧
      (∀ e, hist.head? = some e → e.1 = s) ∧
      (∀ i e1 e2, hist.get? i = some e1 → hist.get? (i + 1) = some e2 → e1.2 = e2.1) ∧
      (∀ e, hist.getLast? = some e → e.2 = c) := by
  induction hist with
  | nil =>
    intro s c h
    simp only [pathEnd, Option.some.injEq] at h
    simp [h]
  | cons e rest ih =>
    intro s c h
    by_cases he : e.1 = s
    · simp only [pathEnd, he, if_true] at h
      obtain ⟨h1, h2, h3, h4⟩ := ih e.2 c h
      refine ⟨by simp, ?_, ?_, ?_⟩
      · intro e0 h0
        simp only [List.head?_cons, Option.some.injEq] at h0
        rw [← h0]; exact he
      · intro i e1 e2 hi hi2
        cases i with
        | zero =>
          simp only [List.get?_cons_zero, Option.some.injEq] at hi
          simp only [List.get?_cons_succ] at hi2
          have : rest.head? = some e2 := by
            cases rest with
            | nil => simp at hi2
            | cons r rs => simpa using hi2
          rw [← hi]
          exact (h2 e2 this).symm
        | succ i =>
          simp only [List.get?_cons_succ] at hi hi2
          exact h3 i e1 e2 hi hi2
      · intro e0 h0
        cases rest with
        | nil =>
          simp only [List.getLast?_singleton, Option.some.injEq] at h0
          rw [← h0]
          exact (h1 rfl).symm
        | cons r rs =>
          rw [List.getLast?_cons_cons] at h0
          exact h4 e0 h0
    · simp [pathEnd, he] at h

end StateMachine

namespace StateMachine

variable {T L : Type}

/-- A call other than `setInitialState` on an initialised machine keeps the
machine initialised and keeps the history a path that ends at the current state. -/
theorem step_path [DecidableEq T] (s0 : T) (m : StateMachine T L) (op : Op T L)
    (hop : op.isSetInitialState = false) (hs : m.hasState = true)
    (hp : pathEnd s0 m.history = some m.current) :
    (m.step op).hasState = true ∧
    pathEnd s0 (m.step op).history = some (m.step op).current := by
  rcases step_cases m op with ⟨hh, _, hk⟩ | ⟨t, ct, _, _, _, hh, hc, hst⟩
  · obtain ⟨hc, hst⟩ := hk hop
    rw [hh, hc, hst]
    exact ⟨hs, hp⟩
  · rw [hh, hc]
    exact ⟨hst, pathEnd_append m.history s0 m.current t hp⟩

/-- The invariant of `step_path` along a sequence of calls. -/
theorem run_path [DecidableEq T] (s0 : T) (ops : List (Op T L)) :
    ∀ m : StateMachine T L, (∀ op ∈ ops, op.isSetInitialState = false) →
      m.hasState = true → pathEnd s0 m.history = some m.current →
      (m.run ops).hasState = true ∧
      pathEnd s0 (m.run ops).history = some (m.run ops).current := by
  induction ops with
  | nil => intro m _ hs hp; exact ⟨hs, hp⟩
  | cons op ops ih =>
    intro m hops hs hp
    obtain ⟨h1, h2⟩ := step_path s0 m op (hops op (List.mem_cons_self _ _)) hs hp
    exact ih (m.step op) (fun o ho => hops o (List.mem_cons_of_mem _ ho)) h1 h2

/-- C19: after `setInitialState(s0)` on a fresh machine followed by any sequence of
`transitionTo`, `addTransition`, `setParentState` and `register*` calls, the history
is a connected path from `s0` to the current state: when it is empty the current
state is `s0`; otherwise its first entry leaves `s0`, every entry enters the state
the next entry leaves, and its last entry enters `getCurrentState()`. -/
theorem history_is_path [DecidableEq T] (d s0 : T) (ops : List (Op T L))
    (hops : ∀ op ∈ ops, op.isSetInitialState = false) :
    pathEnd s0 ((fresh d).run (.setInitialState s0 :: ops)).getHistory =
      some ((fresh d).run (.setInitialState s0 :: ops)).getCurrentState ∧
    (((fresh d).run (.setInitialState s0 :: ops)).getHistory = [] →
      ((fresh d).run (.setInitialState s0 :: ops)).getCurrentState = s0) ∧
    (∀ e, ((fresh d).run (.setInitialState s0 :: ops)).getHistory.head? = some e →
      e.1 = s0) ∧
    (∀ i e1 e2, ((fresh d).run (.setInitialState s0 :: ops)).getHistory.get? i = some e1 →
      ((fresh d).run (.setInitialState s0 :: ops)).getHistory.get? (i + 1) = some e2 →
      e1.2 = e2.1) ∧
    (∀ e, ((fresh d).run (.setInitialState s0 :: ops)).getHistory.getLast? = some e →
      e.2 = ((fresh d).run (.setInitialState s0 :: ops)).getCurrentState) := by
  have hp := (run_path s0 ops ((fresh d : StateMachine T L).setInitialState s0) hops
    rfl (by simp [pathEnd, fresh, setInitialState])).2
  have hp2 : pathEnd s0 ((fresh d).run (.setInitialState s0 :: ops)).getHistory =
      some ((fresh d).run (.setInitialState s0 :: ops)).getCurrentState := hp
  exact ⟨hp2, pathEnd_spec _ s0 _ hp2⟩

/-- A run made of the calls of the demonstration program, `setInitialState(Idle)`
first: its history leads from `Idle` to `Dead`. -/
theorem history_is_path_witness :
    pathEnd Demo.State.Idle ((fresh Demo.State.Idle).run
      (.setInitialState Demo.State.Idle ::
        (Demo.withoutInitialState ++ Demo.transitions))).getHistory =
      some ((fresh Demo.State.Idle).run
        (.setInitialState Demo.State.Idle ::
          (Demo.withoutInitialState ++ Demo.transitions))).getCurrentState ∧
    ((fresh Demo.State.Idle).run
      (.setInitialState Demo.State.Idle ::
        (Demo.withoutInitialState ++ Demo.transitions))).getHistory =
      [(Demo.State.Idle, Demo.State.Running), (Demo.State.Running, Demo.State.Jumping),
       (Demo.State.Jumping, Demo.State.Dead)] :=
  ⟨(history_is_path Demo.State.Idle Demo.State.Idle
      (Demo.withoutInitialState ++ Demo.transitions) (by decide)).1,
   by decide⟩

/-- One call keeps every history entry a structurally valid pair of two different
states. -/
theorem step_history_valid [DecidableEq T] (m : StateMachine T L) (op : Op T L)
    (hinv : ∀ e ∈ m.history, e.1 ≠ e.2 ∧ m.isValidTransition e.1 e.2 = true) :
    ∀ e ∈ (m.step op).history,
      e.1 ≠ e.2 ∧ (m.step op).isValidTransition e.1 e.2 = true := by
  intro e he
  rcases step_cases m op with ⟨hh, _, _⟩ | ⟨t, ct, _, hres, _, hh, _, _⟩
  · rw [hh] at he
    exact ⟨(hinv e he).1, isValidTransition_step m op _ _ (hinv e he).2⟩
  · rw [hh] at he
    rcases List.mem_append.1 he with he | he
    · exact ⟨(hinv e he).1, isValidTransition_step m op _ _ (hinv e he).2⟩
    · simp only [List.mem_singleton] at he
      subst he
      obtain ⟨_, hne, hv, _⟩ := (transitionTo_result ct m t).1 hres
      exact ⟨fun e => hne e.symm, isValidTransition_step m op _ _ hv⟩

/-- The invariant of `step_history_valid` along a sequence of calls. -/
theorem run_history_valid [DecidableEq T] (ops : List (Op T L)) :
    ∀ m : StateMachine T L,
      (∀ e ∈ m.history, e.1 ≠ e.2 ∧ m.isValidTransition e.1 e.2 = true) →
      ∀ e ∈ (m.run ops).history,
        e.1 ≠ e.2 ∧ (m.run ops).isValidTransition e.1 e.2 = true := by
  induction ops with
  | nil => intro m hinv; exact hinv
  | cons op ops ih => intro m hinv; exact ih (m.step op) (step_history_valid m op hinv)

/-- C20: in every state reached from a fresh machine by a sequence of
`setInitialState`, `addTransition` (three forms), `setParentState`, `register*` and
`transitionTo` calls, every history entry `(f, t)` has `f ≠ t` and
`isValidTransition(f, t)` holds in the current graph: no call removes an edge or a
wildcard, so a pair that is structurally valid stays so after any call and after
any sequence of calls. -/
theorem history_entries_valid [DecidableEq T] (d : T) (ops : List (Op T L)) :
    (∀ e ∈ ((fresh d : StateMachine T L).run ops).getHistory,
      e.1 ≠ e.2 ∧ ((fresh d : StateMachine T L).run ops).isValidTransition e.1 e.2 = true) ∧
    (∀ (m : StateMachine T L) (op : Op T L) (a b : T),
      m.isValidTransition a b = true → (m.step op).isValidTransition a b = true) ∧
    (∀ (m : StateMachine T L) (more : List (Op T L)) (a b : T),
      m.isValidTransition a b = true → (m.run more).isValidTransition a b = true) := by
  refine ⟨?_, isValidTransition_step, fun m more a b h => isValidTransition_run more m a b h⟩
  exact run_history_valid ops (fresh d) (by simp [fresh])

/-- A run made of the calls of the demonstration program: its history entries are
valid pairs of different states in the final graph. -/
theorem history_entries_valid_witness :
    ∀ e ∈ ((fresh Demo.State.Idle : StateMachine Demo.State Demo.Listener).run
        (.setInitialState Demo.State.Idle ::
          (Demo.withoutInitialState ++ Demo.transitions))).getHistory,
      e.1 ≠ e.2 ∧
      ((fresh Demo.State.Idle : StateMachine Demo.State Demo.Listener).run
        (.setInitialState Demo.State.Idle ::
          (Demo.withoutInitialState ++ Demo.transitions))).isValidTransition e.1 e.2 = true :=
  (history_entries_valid Demo.State.Idle
    (.setInitialState Demo.State.Idle ::
      (Demo.withoutInitialState ++ Demo.transitions))).1

end StateMachine
